import Mathlib

/-!
# The wasm-bindgen boundary layer of `pkg/synth_bg.js`

A shallow embedding of the handle table (`heap`, `heap_next`, `getObject`,
`dropObject`, `takeObject`, `addHeapObject`), of the string codec
(`passStringToWasm0`, `getStringFromWasm0`) and of the exports built on them,
followed by the properties proved about them.

Conventions of the embedding:
* the module-level variables `heap` and `heap_next` become the fields of an
  explicit `HeapState` that every operation takes and returns;
* a JavaScript array is a `List JsVal`; a hole and an index past the end both
  read as `undefined`, exactly as `heap[idx]` does;
* handles and pointers cross the boundary as non-negative integers (`Nat`).
-/

namespace Synth

/-! ## Values -/

/-- A JavaScript string: its sequence of UTF-16 code units. -/
abbrev JsString := List Nat

/-- The JavaScript values the handle table can hold. Integer-valued numbers are
`num`; `obj id` stands for any other value, told apart by identity. -/
inductive JsVal where
  | undefined
  | null
  | bool (b : Bool)
  | num (n : Int)
  | str (s : JsString)
  | obj (id : Nat)
deriving DecidableEq, Repr

/-- The array index a value denotes when used as `heap[v]`: a non-negative
integer number. Any other key names a property of the array object. -/
def JsVal.asIndex : JsVal → Option Nat
  | .num n => if 0 ≤ n then some n.toNat else none
  | _ => none

/-! ## The handle table -/

/-- The two module-level variables of the handle table. -/
structure HeapState where
  heap : List JsVal
  heap_next : JsVal
deriving DecidableEq, Repr

/-- Array read `arr[idx]`: `undefined` past the end. -/
def arrayGet (arr : List JsVal) (idx : Nat) : JsVal :=
  (arr[idx]?).getD .undefined

/-- Array write `arr[idx] = v`: in place below `arr.length`, otherwise the array
grows to length `idx + 1` and the slots in between are holes. -/
def arraySet (arr : List JsVal) (idx : Nat) (v : JsVal) : List JsVal :=
  if idx < arr.length then arr.set idx v
  else arr ++ List.replicate (idx - arr.length) .undefined ++ [v]

/-- Lines 3-5: `new Array(32).fill(undefined)` then
`heap.push(undefined, null, true, false)`. -/
def initialHeap : List JsVal :=
  List.replicate 32 .undefined ++ [.undefined, .null, .bool true, .bool false]

/-- Line 9: `let heap_next = heap.length`. -/
def initialState : HeapState :=
  { heap := initialHeap, heap_next := .num initialHeap.length }

/-- Line 7: `function getObject(idx) { return heap[idx]; }`. -/
def getObject (idx : Nat) (s : HeapState) : JsVal :=
  arrayGet s.heap idx

/-- Lines 11-15: `dropObject`. -/
def dropObject (idx : Nat) (s : HeapState) : HeapState :=
  if idx < 36 then s
  else { heap := arraySet s.heap idx s.heap_next, heap_next := .num idx }

/-- Lines 17-21: `takeObject` returns the value read and the state after the
drop. -/
def takeObject (idx : Nat) (s : HeapState) : JsVal × HeapState :=
  let ret := getObject idx s
  let s1 := dropObject idx s
  (ret, s1)

/-- Lines 41-48: `addHeapObject` returns the handle and the new state.
The result is `none` when `heap_next` is not an array index: the call would then
read and write a named property of the array object, which the list model of
the array does not represent. -/
def addHeapObject (obj : JsVal) (s : HeapState) : Option (Nat × HeapState) :=
  let heap1 :=
    if s.heap_next = .num s.heap.length then s.heap ++ [.num (s.heap.length + 1)]
    else s.heap
  match s.heap_next.asIndex with
  | none => none
  | some idx =>
    let next := arrayGet heap1 idx
    some (idx, { heap := arraySet heap1 idx obj, heap_next := next })

/-- Lines 264-266: `__wbindgen_object_drop_ref`. -/
def __wbindgen_object_drop_ref (arg0 : Nat) (s : HeapState) : HeapState :=
  (takeObject arg0 s).2

/-- Lines 863-866: `__wbindgen_object_clone_ref`. -/
def __wbindgen_object_clone_ref (arg0 : Nat) (s : HeapState) : Option (Nat × HeapState) :=
  let ret := getObject arg0 s
  addHeapObject ret s

/-! ## Disciplined use of the table

A ghost list of live handles follows the calls: `addHeapObject` adds the handle
it returns, `dropObject` and `takeObject` remove theirs. A run is disciplined
when every drop or take is applied to a live handle or to an index below 36. -/

/-- One call on the handle table. -/
inductive Op where
  | add (v : JsVal)
  | drop (idx : Nat)
  | take (idx : Nat)
deriving DecidableEq, Repr

/-- The handle a call releases, if any. -/
def Op.target : Op → Option Nat
  | .add _ => none
  | .drop idx => some idx
  | .take idx => some idx

/-- A table state together with the handles currently live. -/
structure Tracked where
  state : HeapState
  live : List Nat
deriving DecidableEq, Repr

/-- The table before any call: no handle is live. -/
def Tracked.initial : Tracked :=
  { state := initialState, live := [] }

/-- One disciplined call; `none` when the call breaks the discipline (or when
`addHeapObject` leaves the model). -/
def Tracked.step (t : Tracked) : Op → Option Tracked
  | .add v =>
    match addHeapObject v t.state with
    | none => none
    | some (h, s1) => some { state := s1, live := h :: t.live }
  | .drop idx =>
    if idx < 36 ∨ idx ∈ t.live then
      some { state := dropObject idx t.state, live := t.live.erase idx }
    else none
  | .take idx =>
    if idx < 36 ∨ idx ∈ t.live then
      some { state := (takeObject idx t.state).2, live := t.live.erase idx }
    else none

/-- A sequence of disciplined calls. -/
def Tracked.run : List Op → Tracked → Option Tracked
  | [], t => some t
  | op :: ops, t =>
    match t.step op with
    | none => none
    | some t1 => Tracked.run ops t1

/-- The free list `free` is threaded through `heap`: every member is a slot at
or above 36 inside the array and holds the number of its successor, the last one
holding `heap.length`. -/
def FreeChain (heap : List JsVal) : List Nat → Prop
  | [] => True
  | a :: rest =>
    36 ≤ a ∧ a < heap.length ∧ arrayGet heap a = .num (rest.headD heap.length) ∧
      FreeChain heap rest

/-- A well-formed table with free list `free`: `heap_next` is the head of the
free list (or `heap.length` when it is empty), the list is threaded through the
heap without repetition, and the 36 reserved slots exist. -/
structure WellFormed (s : HeapState) (free : List Nat) : Prop where
  reserved : 36 ≤ s.heap.length
  next : s.heap_next = .num (free.headD s.heap.length)
  chain : FreeChain s.heap free
  nodup : free.Nodup

/-- A handle is live in a well-formed table when it is a slot at or above 36
that is not on the free list. -/
def Live (s : HeapState) (free : List Nat) (h : Nat) : Prop :=
  36 ≤ h ∧ h < s.heap.length ∧ h ∉ free

/-- The four reserved constants sit at 32..35. -/
def ReservedIntact (s : HeapState) : Prop :=
  getObject 32 s = .undefined ∧ getObject 33 s = .null ∧
    getObject 34 s = .bool true ∧ getObject 35 s = .bool false

/-- The invariant kept by disciplined runs: the table is well formed with free
list `free`, the ghost list holds exactly the live slots, each once, and the
reserved constants are in place. -/
structure Tracked.Inv (t : Tracked) (free : List Nat) : Prop where
  wf : WellFormed t.state free
  live_iff : ∀ h, h ∈ t.live ↔ Live t.state free h
  nodup : t.live.Nodup
  consts : ReservedIntact t.state

/-! ## Strings, bytes and exceptions -/

/-- The exceptions the string codec can raise. -/
inductive JsError where
  | TypeError
  | RangeError
deriving DecidableEq, Repr

/-- The contents of `wasm.memory.buffer`, one number below 256 per byte. -/
abbrev Memory := List Nat

/-- A code unit in the high-surrogate range. -/
def isHighSurrogate (u : Nat) : Bool := 0xD800 ≤ u && u < 0xDC00

/-- A code unit in the low-surrogate range. -/
def isLowSurrogate (u : Nat) : Bool := 0xDC00 ≤ u && u < 0xE000

/-- Every element is a 16-bit code unit, as in any JavaScript string. -/
def validUnits (s : JsString) : Bool := s.all (fun u => u < 0x10000)

/-- A text without unpaired surrogates: every high surrogate is followed by a low
one and no low surrogate stands alone. -/
def wellFormedText : JsString → Bool
  | [] => true
  | u :: rest =>
    if isHighSurrogate u then
      match rest with
      | [] => false
      | l :: rest1 => isLowSurrogate l && wellFormedText rest1
    else if isLowSurrogate u then false
    else u < 0x10000 && wellFormedText rest

/-- A Unicode scalar value: a code point that is not a surrogate. -/
def isScalarValue (cp : Nat) : Bool := cp < 0xD800 || (0xE000 ≤ cp && cp < 0x110000)

/-- The scalar values of a string (conversion to a USVString): a surrogate pair
is one code point, an unpaired surrogate becomes U+FFFD. -/
def toScalarValues : JsString → List Nat
  | [] => []
  | [u] => if isHighSurrogate u || isLowSurrogate u then [0xFFFD] else [u]
  | u :: l :: rest =>
    if isHighSurrogate u && isLowSurrogate l then
      (0x10000 + (u - 0xD800) * 0x400 + (l - 0xDC00)) :: toScalarValues rest
    else if isHighSurrogate u || isLowSurrogate u then 0xFFFD :: toScalarValues (l :: rest)
    else u :: toScalarValues (l :: rest)

/-- The code units of a sequence of code points: a code point above U+FFFF is a
surrogate pair. -/
def fromCodePoints : List Nat → JsString
  | [] => []
  | cp :: rest =>
    if cp < 0x10000 then cp :: fromCodePoints rest
    else (0xD800 + (cp - 0x10000) / 0x400) :: (0xDC00 + (cp - 0x10000) % 0x400) ::
      fromCodePoints rest

/-- The UTF-8 bytes of one code point (the UTF-8 encoder of the Encoding
Standard). -/
def utf8EncodeScalar (cp : Nat) : List Nat :=
  if cp < 0x80 then [cp]
  else if cp < 0x800 then [0xC0 + cp / 0x40, 0x80 + cp % 0x40]
  else if cp < 0x10000 then [0xE0 + cp / 0x1000, 0x80 + cp / 0x40 % 0x40, 0x80 + cp % 0x40]
  else [0xF0 + cp / 0x40000, 0x80 + cp / 0x1000 % 0x40, 0x80 + cp / 0x40 % 0x40,
    0x80 + cp % 0x40]

/-- The UTF-8 bytes of a sequence of code points. -/
def utf8EncodeScalars : List Nat → List Nat
  | [] => []
  | cp :: rest => utf8EncodeScalar cp ++ utf8EncodeScalars rest

/-- The host method `TextEncoder.prototype.encode` (line 139 creates the encoder):
the UTF-8 bytes of the scalar values of the string. -/
def TextEncoder.encode (s : JsString) : List Nat :=
  utf8EncodeScalars (toScalarValues s)

/-- The loop of the host method `TextEncoder.prototype.encodeInto` over the
scalar values of the source, with `cap` bytes of room left: a code point is
written only when all its bytes fit. Returns the code units read and the bytes
written. -/
def encodeIntoLoop : List Nat → Nat → Nat × List Nat
  | [], _ => (0, [])
  | cp :: rest, cap =>
    let bs := utf8EncodeScalar cp
    if bs.length ≤ cap then
      let r := encodeIntoLoop rest (cap - bs.length)
      ((if cp > 0xFFFF then 2 else 1) + r.1, bs ++ r.2)
    else (0, [])

/-- The state of the UTF-8 decoder of the Encoding Standard. -/
structure Utf8Decoder where
  codePoint : Nat
  bytesSeen : Nat
  bytesNeeded : Nat
  lowerBoundary : Nat
  upperBoundary : Nat
deriving DecidableEq, Repr

/-- The decoder before any byte. -/
def Utf8Decoder.start : Utf8Decoder :=
  { codePoint := 0, bytesSeen := 0, bytesNeeded := 0, lowerBoundary := 0x80,
    upperBoundary := 0xBF }

/-- What the decoder's handler answers for one byte. `errorRestore` is an error
that puts the byte back in front of the input. -/
inductive HandlerResult where
  | continue
  | codePoint (cp : Nat)
  | error
  | errorRestore
deriving DecidableEq, Repr

/-- The handler of the UTF-8 decoder for one byte. `byte & m` for a mask
`m = 2^k - 1` is `byte % 2^k`, and `(cp << 6) | (byte & 0x3F)` is
`cp * 64 + byte % 64`. -/
def Utf8Decoder.handler (d : Utf8Decoder) (byte : Nat) : Utf8Decoder × HandlerResult :=
  if d.bytesNeeded = 0 then
    if byte ≤ 0x7F then (d, .codePoint byte)
    else if 0xC2 ≤ byte ∧ byte ≤ 0xDF then
      ({ d with bytesNeeded := 1, codePoint := byte % 0x20 }, .continue)
    else if 0xE0 ≤ byte ∧ byte ≤ 0xEF then
      ({ d with
          lowerBoundary := if byte = 0xE0 then 0xA0 else d.lowerBoundary,
          upperBoundary := if byte = 0xED then 0x9F else d.upperBoundary,
          bytesNeeded := 2, codePoint := byte % 0x10 }, .continue)
    else if 0xF0 ≤ byte ∧ byte ≤ 0xF4 then
      ({ d with
          lowerBoundary := if byte = 0xF0 then 0x90 else d.lowerBoundary,
          upperBoundary := if byte = 0xF4 then 0x8F else d.upperBoundary,
          bytesNeeded := 3, codePoint := byte % 0x8 }, .continue)
    else (d, .error)
  else if byte < d.lowerBoundary ∨ d.upperBoundary < byte then
    (Utf8Decoder.start, .errorRestore)
  else
    let cp := d.codePoint * 0x40 + byte % 0x40
    if d.bytesSeen + 1 ≠ d.bytesNeeded then
      ({ d with lowerBoundary := 0x80, upperBoundary := 0xBF, codePoint := cp,
                bytesSeen := d.bytesSeen + 1 }, .continue)
    else (Utf8Decoder.start, .codePoint cp)

/-- Running the decoder over the input with error mode fatal (`fatal = true`:
an error throws a TypeError) or replacement (an error emits U+FFFD). At the end
of the input a pending sequence is an error. -/
def Utf8Decoder.run (fatal : Bool) : Utf8Decoder → List Nat → Except JsError (List Nat)
  | d, [] =>
    if d.bytesNeeded = 0 then .ok []
    else if fatal then .error .TypeError
    else .ok [0xFFFD]
  | d, byte :: rest =>
    match d.handler byte with
    | (d1, .continue) => Utf8Decoder.run fatal d1 rest
    | (d1, .codePoint cp) => (Utf8Decoder.run fatal d1 rest).map (fun r => cp :: r)
    | (d1, .error) =>
      if fatal then .error .TypeError
      else (Utf8Decoder.run fatal d1 rest).map (fun r => 0xFFFD :: r)
    | (d1, .errorRestore) =>
      if fatal then .error .TypeError
      else
        match d1.handler byte with
        | (d2, .codePoint cp) =>
          (Utf8Decoder.run fatal d2 rest).map (fun r => 0xFFFD :: cp :: r)
        | (d2, .continue) => (Utf8Decoder.run fatal d2 rest).map (fun r => 0xFFFD :: r)
        | (d2, _) => (Utf8Decoder.run fatal d2 rest).map (fun r => 0xFFFD :: 0xFFFD :: r)

/-- The options a `TextDecoder('utf-8', ...)` is built with. -/
structure TextDecoder where
  ignoreBOM : Bool
  fatal : Bool
deriving DecidableEq, Repr

/-- The host method `TextDecoder.prototype.decode` on a whole input: a leading
byte order mark is dropped unless `ignoreBOM` is set, the bytes are decoded from
the start state, and the code points become code units. -/
def TextDecoder.decode (dec : TextDecoder) (bytes : List Nat) : Except JsError JsString :=
  let input :=
    if !dec.ignoreBOM && bytes.take 3 == [0xEF, 0xBB, 0xBF] then bytes.drop 3 else bytes
  (Utf8Decoder.run dec.fatal Utf8Decoder.start input).map fromCodePoints

/-- Line 25: `new lTextDecoder('utf-8', { ignoreBOM: true, fatal: true })`. -/
def cachedTextDecoder : TextDecoder :=
  { ignoreBOM := true, fatal := true }

/-! ## Views on the module memory -/

/-- A `Uint8Array` window on the memory buffer. -/
structure View where
  byteOffset : Nat
  length : Nat
deriving DecidableEq, Repr

/-- `getUint8Memory0().subarray(begin, end)`: both ends are clamped to the size
of the buffer. -/
def subarray (mem : Memory) (b e : Nat) : View :=
  { byteOffset := min b mem.length, length := min e mem.length - min b mem.length }

/-- The bytes a view shows. -/
def View.bytes (v : View) (mem : Memory) : List Nat :=
  (mem.drop v.byteOffset).take v.length

/-- Overwriting the bytes from `off` on with `bs`. -/
def writeAt (mem : Memory) (off : Nat) (bs : List Nat) : Memory :=
  mem.take off ++ bs ++ mem.drop (off + bs.length)

/-- `view.set(buf)`: a RangeError when `buf` is longer than the view. -/
def View.set (v : View) (mem : Memory) (buf : List Nat) : Except JsError Memory :=
  if v.length < buf.length then .error .RangeError
  else .ok (writeAt mem v.byteOffset buf)

/-- Element store `mem[i] = code` on the byte view of the whole buffer: the value
is reduced modulo 256, and a store past the end is ignored. -/
def storeByte (mem : Memory) (i : Nat) (code : Nat) : Memory :=
  if i < mem.length then mem.set i (code % 256) else mem

/-- Lines 37-39: `getStringFromWasm0`. -/
def getStringFromWasm0 (ptr len : Nat) (mem : Memory) : Except JsError JsString :=
  cachedTextDecoder.decode ((subarray mem ptr (ptr + len)).bytes mem)

/-! ## Passing a string to the module -/

/-- The export `__wbindgen_malloc`: size and memory to pointer and memory. -/
abbrev Malloc := Nat → Memory → Nat × Memory

/-- The export `__wbindgen_realloc`: pointer, old size, new size and memory to
pointer and memory. -/
abbrev Realloc := Nat → Nat → Nat → Memory → Nat × Memory

/-- A call of an allocator export, as recorded in the call log. -/
inductive AllocCall where
  | malloc (size : Nat)
  | realloc (ptr oldSize newSize : Nat)
deriving DecidableEq, Repr

/-- The object `{ read, written }` returned by `encodeString`. -/
structure EncodeResult where
  read : Nat
  written : Nat
deriving DecidableEq, Repr

/-- Lines 141-152: `encodeString`. `hasEncodeInto` is the outcome of the test
`typeof cachedTextEncoder.encodeInto === 'function'` that picks the variant. -/
def encodeString (hasEncodeInto : Bool) (arg : JsString) (view : View) (mem : Memory) :
    Except JsError (EncodeResult × Memory) :=
  if hasEncodeInto then
    let r := encodeIntoLoop (toScalarValues arg) view.length
    .ok ({ read := r.1, written := r.2.length }, writeAt mem view.byteOffset r.2)
  else
    let buf := TextEncoder.encode arg
    match view.set mem buf with
    | .error e => .error e
    | .ok mem1 => .ok ({ read := arg.length, written := buf.length }, mem1)

/-- Lines 171-175: the loop that stores leading ASCII code units; `rest` is the
part of `arg` from `offset` on. Returns the final `offset` and the memory. -/
def asciiLoop (ptr : Nat) : JsString → Nat → Memory → Nat × Memory
  | [], offset, mem => (offset, mem)
  | code :: rest, offset, mem =>
    if code > 0x7F then (offset, mem)
    else asciiLoop ptr rest (offset + 1) (storeByte mem (ptr + offset) code)

/-- What `passStringToWasm0` leaves behind: the pointer returned, the global
`WASM_VECTOR_LEN`, the memory, and the log of allocator calls made. -/
structure PassResult where
  ptr : Nat
  WASM_VECTOR_LEN : Nat
  memory : Memory
  calls : List AllocCall
deriving DecidableEq, Repr

/-- Lines 154-190: `passStringToWasm0`; `realloc = none` is the call without a
third argument. -/
def passStringToWasm0 (hasEncodeInto : Bool) (arg : JsString) (malloc : Malloc)
    (realloc : Option Realloc) (mem : Memory) : Except JsError PassResult :=
  match realloc with
  | none =>
    let buf := TextEncoder.encode arg
    let (ptr, mem1) := malloc buf.length mem
    match (subarray mem1 ptr (ptr + buf.length)).set mem1 buf with
    | .error e => .error e
    | .ok mem2 =>
      .ok { ptr := ptr, WASM_VECTOR_LEN := buf.length, memory := mem2,
            calls := [.malloc buf.length] }
  | some realloc =>
    let len := arg.length
    let (ptr, mem1) := malloc len mem
    let (offset, mem2) := asciiLoop ptr arg 0 mem1
    if offset ≠ len then
      let arg1 := if offset ≠ 0 then arg.drop offset else arg
      let len1 := offset + arg1.length * 3
      let (ptr1, mem3) := realloc ptr len len1 mem2
      let view := subarray mem3 (ptr1 + offset) (ptr1 + len1)
      match encodeString hasEncodeInto arg1 view mem3 with
      | .error e => .error e
      | .ok (ret, mem4) =>
        .ok { ptr := ptr1, WASM_VECTOR_LEN := offset + ret.written, memory := mem4,
              calls := [.malloc len, .realloc ptr len len1] }
    else
      .ok { ptr := ptr, WASM_VECTOR_LEN := offset, memory := mem2, calls := [.malloc len] }

/-- The allocator returns a region that lies inside the memory it leaves. -/
def MallocOk (malloc : Malloc) : Prop :=
  ∀ n mem, (malloc n mem).1 + n ≤ (malloc n mem).2.length

/-- The reallocator, given a region inside the memory, returns a region of the
new size inside the memory it leaves, whose first bytes (up to the smaller of
the two sizes) are those of the old region. -/
def ReallocOk (realloc : Realloc) : Prop :=
  ∀ p old new mem, p + old ≤ mem.length →
    (realloc p old new mem).1 + new ≤ (realloc p old new mem).2.length ∧
    ((realloc p old new mem).2.drop (realloc p old new mem).1).take (min old new) =
      (mem.drop p).take (min old new)

/-- Valid UTF-8: the bytes are the encoding of some sequence of Unicode scalar
values. -/
def ValidUtf8 (bytes : List Nat) : Prop :=
  ∃ cps : List Nat, (∀ cp ∈ cps, isScalarValue cp = true) ∧ utf8EncodeScalars cps = bytes

/-- The number of leading code units that are at most 0x7F: the index of the
first code unit above 0x7F, or the length when there is none. -/
def asciiPrefixLen : JsString → Nat
  | [] => 0
  | code :: rest => if code > 0x7F then 0 else asciiPrefixLen rest + 1

/-- A bump allocator used in examples: the region is appended to the memory. -/
def bumpMalloc : Malloc :=
  fun n mem => (mem.length, mem ++ List.replicate n 0)

/-- A moving reallocator used in examples: the new region is appended and the
old bytes are copied into it. -/
def bumpRealloc : Realloc :=
  fun p old new mem =>
    (mem.length, mem ++ ((mem.drop p).take (min old new) ++
      List.replicate (new - min old new) 0))

/-! ## Cached views on the memory buffer -/

/-- The element type of a typed array. -/
inductive ViewKind where
  | uint8
  | int32
  | float64
deriving DecidableEq, Repr

/-- A typed-array object: its own identity, its element type and the identity of
the `ArrayBuffer` it wraps (what `view.buffer` is compared by). -/
structure TypedArray where
  id : Nat
  kind : ViewKind
  buffer : Nat
deriving DecidableEq, Repr

/-- The three cache variables of lines 29, 54 and 62 (`null` is `none`), and the
identity the next constructed object receives. -/
structure ViewCache where
  cachegetUint8Memory0 : Option TypedArray
  cachegetFloat64Memory0 : Option TypedArray
  cachegetInt32Memory0 : Option TypedArray
  nextId : Nat
deriving DecidableEq, Repr

/-- Lines 30-35: `getUint8Memory0`; `memoryBuffer` is the identity of
`wasm.memory.buffer` at the time of the call. -/
def getUint8Memory0 (memoryBuffer : Nat) (c : ViewCache) : TypedArray × ViewCache :=
  match c.cachegetUint8Memory0 with
  | none =>
    let view : TypedArray := { id := c.nextId, kind := .uint8, buffer := memoryBuffer }
    (view, { c with cachegetUint8Memory0 := some view, nextId := c.nextId + 1 })
  | some cached =>
    if cached.buffer ≠ memoryBuffer then
      let view : TypedArray := { id := c.nextId, kind := .uint8, buffer := memoryBuffer }
      (view, { c with cachegetUint8Memory0 := some view, nextId := c.nextId + 1 })
    else (cached, c)

/-- Lines 55-60: `getFloat64Memory0`. -/
def getFloat64Memory0 (memoryBuffer : Nat) (c : ViewCache) : TypedArray × ViewCache :=
  match c.cachegetFloat64Memory0 with
  | none =>
    let view : TypedArray := { id := c.nextId, kind := .float64, buffer := memoryBuffer }
    (view, { c with cachegetFloat64Memory0 := some view, nextId := c.nextId + 1 })
  | some cached =>
    if cached.buffer ≠ memoryBuffer then
      let view : TypedArray := { id := c.nextId, kind := .float64, buffer := memoryBuffer }
      (view, { c with cachegetFloat64Memory0 := some view, nextId := c.nextId + 1 })
    else (cached, c)

/-- Lines 63-68: `getInt32Memory0`. -/
def getInt32Memory0 (memoryBuffer : Nat) (c : ViewCache) : TypedArray × ViewCache :=
  match c.cachegetInt32Memory0 with
  | none =>
    let view : TypedArray := { id := c.nextId, kind := .int32, buffer := memoryBuffer }
    (view, { c with cachegetInt32Memory0 := some view, nextId := c.nextId + 1 })
  | some cached =>
    if cached.buffer ≠ memoryBuffer then
      let view : TypedArray := { id := c.nextId, kind := .int32, buffer := memoryBuffer }
      (view, { c with cachegetInt32Memory0 := some view, nextId := c.nextId + 1 })
    else (cached, c)

/-- The condition of lines 31, 56 and 64: the cache is `null` or wraps another
buffer than the current one. -/
def Stale (cache : Option TypedArray) (memoryBuffer : Nat) : Prop :=
  cache = none ∨ ∃ cached, cache = some cached ∧ cached.buffer ≠ memoryBuffer

/-! ## Trampolines and wrapped host calls

The world of one trampoline: the handle table, the object `state` that the
function `real` of `makeMutClosure` closes over, and a log of the calls made to
module exports and to the dispatch function. The function object `real` is the
value `JsVal.obj trampoline`; no other value has an `original` property. -/

/-- The object `state` of line 193. -/
structure ClosureState where
  a : Int
  b : Int
  cnt : Int
  dtor : Nat
deriving DecidableEq, Repr

/-- A logged call: `f(a, b, ...args)` of line 202,
`wasm.__wbindgen_export_2.get(dtor)(a, b)` of line 205, or
`wasm.__wbindgen_exn_store(handle)` of line 259. -/
inductive Call where
  | dispatch (a b : Int) (args : List JsVal)
  | destructor (dtor : Nat) (a b : Int)
  | exnStore (handle : Nat)
deriving DecidableEq, Repr

/-- The state the trampoline code and the wrapped host calls act on. -/
structure World where
  table : HeapState
  trampoline : Nat
  state : ClosureState
  calls : List Call
deriving DecidableEq, Repr

/-- One run of a dispatch function `f(a, b, ...args)`: it returns or throws, and
may change the world on the way (through the module it calls into). -/
abbrev Dispatch := Int → Int → List JsVal → World → Except JsVal JsVal × World

/-- A host function applied to `this` and `arguments`. -/
abbrev HostFn := JsVal → List JsVal → World → Except JsVal JsVal × World

/-- The destructor export `wasm.__wbindgen_export_2.get(dtor)`: what calling it
with `(a, b)` does to the handle table (it may release handles). -/
abbrev Destructor := Nat → Int → Int → HeapState → HeapState

/-- Line 193: the object `state` that `makeMutClosure(arg0, arg1, dtor, f)`
creates. -/
def makeMutClosure (arg0 arg1 : Int) (dtor : Nat) : ClosureState :=
  { a := arg0, b := arg1, cnt := 1, dtor := dtor }

/-- Lines 194-211: an invocation `real(...args)` of the trampoline, `f` being
the run of the dispatch function it makes. -/
def real (destroy : Destructor) (f : Dispatch) (args : List JsVal) (w : World) :
    Except JsVal JsVal × World :=
  let w1 : World := { w with state := { w.state with cnt := w.state.cnt + 1 } }
  let a := w1.state.a
  let w2 : World := { w1 with state := { w1.state with a := 0 } }
  let r := f a w2.state.b args { w2 with calls := w2.calls ++ [.dispatch a w2.state.b args] }
  let w3 : World := { r.2 with state := { r.2.state with cnt := r.2.state.cnt - 1 } }
  if w3.state.cnt = 0 then
    (r.1, { w3 with
      calls := w3.calls ++ [.destructor w3.state.dtor a w3.state.b],
      table := destroy w3.state.dtor a w3.state.b w3.table })
  else
    (r.1, { w3 with state := { w3.state with a := a } })

/-- Lines 273-281: `__wbindgen_cb_drop`. Reading `.original.cnt` of a value that
is not the trampoline is a TypeError. -/
def __wbindgen_cb_drop (arg0 : Nat) (w : World) : Except JsError Bool × World :=
  let taken := takeObject arg0 w.table
  let w1 : World := { w with table := taken.2 }
  if taken.1 = .obj w1.trampoline then
    let old := w1.state.cnt
    let w2 : World := { w1 with state := { w1.state with cnt := old - 1 } }
    if old = 1 then
      (.ok true, { w2 with state := { w2.state with a := 0 } })
    else (.ok false, w2)
  else (.error .TypeError, w1)

/-- Lines 997-1000: `__wbindgen_closure_wrapper1367` on a handle table, `self`
being the identity of the function object created; returns the handle and the
world of the new trampoline. -/
def __wbindgen_closure_wrapper1367 (arg0 arg1 : Int) (self : Nat) (table : HeapState) :
    Option (Nat × World) :=
  let state := makeMutClosure arg0 arg1 734
  match addHeapObject (.obj self) table with
  | none => none
  | some (h, table1) =>
    some (h, { table := table1, trampoline := self, state := state, calls := [] })

/-- Lines 253-262: the function returned by `handleError(f)`, applied to `this`
and `arguments`. The result is `none` only when `addHeapObject` is. -/
def handleError (f : HostFn) (thisArg : JsVal) (arguments : List JsVal) (w : World) :
    Option (Except JsVal JsVal × World) :=
  match f thisArg arguments w with
  | (.ok r, w1) => some (.ok r, w1)
  | (.error e, w1) =>
    match addHeapObject e w1.table with
    | none => none
    | some (h, table1) =>
      some (.ok .undefined, { w1 with table := table1, calls := w1.calls ++ [.exnStore h] })

/-- The destructor calls in a log. -/
def destructorCalls (calls : List Call) : List Call :=
  calls.filter fun c => match c with
    | .destructor _ _ _ => true
    | _ => false

/-- The dispatch calls in a log. -/
def dispatchCalls (calls : List Call) : List Call :=
  calls.filter fun c => match c with
    | .dispatch _ _ _ => true
    | _ => false

/-- Invocations of the trampoline one after the other, each completing before the
next starts, one for each argument list. -/
def invokeAll (destroy : Destructor) (f : Dispatch) : List (List JsVal) → World → World
  | [], w => w
  | args :: rest, w => invokeAll destroy f rest (real destroy f args w).2

/-- A dispatch run that neither drops nor re-enters the trampoline: it leaves the
object `state` alone and makes no destructor or dispatch call. -/
def Quiet (f : Dispatch) : Prop :=
  ∀ a b args w,
    (f a b args w).2.state = w.state ∧
    destructorCalls (f a b args w).2.calls = destructorCalls w.calls ∧
    dispatchCalls (f a b args w).2.calls = dispatchCalls w.calls

/-- A dispatch run that re-enters the trampoline: meanwhile it invokes `real`
again with `innerArgs` (the dispatch run of that invocation being `inner`), and
completes with `k` of the outcome of the nested invocation. -/
def reenter (destroy : Destructor) (inner : Dispatch) (innerArgs : List JsVal)
    (k : Except JsVal JsVal → Except JsVal JsVal) : Dispatch :=
  fun _ _ _ w => (k (real destroy inner innerArgs w).1, (real destroy inner innerArgs w).2)

/-- A dispatch run that drops the closure while the invocation is in flight: it
calls `__wbindgen_cb_drop(handle)` and completes with `out`. -/
def dropInFlight (handle : Nat) (out : Except JsVal JsVal) : Dispatch :=
  fun _ _ _ w => (out, (__wbindgen_cb_drop handle w).2)

/-- The first environment word of every dispatch call in the log is zero. -/
def ZeroWords (calls : List Call) : Prop :=
  ∀ a b args, Call.dispatch a b args ∈ calls → a = 0

/-- A dispatch run that may re-enter the trampoline, to any depth, but never
drops it: started while an invocation is in flight (counter positive, first
word zero) it gives the object `state` back as it found it, only appends to the
log, makes no destructor call, and every dispatch call it makes gets zero as
first word. -/
def Reentrant (f : Dispatch) : Prop :=
  ∀ a b args w, 0 < w.state.cnt → w.state.a = 0 →
    (f a b args w).2.state = w.state ∧
    ∃ extra, (f a b args w).2.calls = w.calls ++ extra ∧
      destructorCalls extra = [] ∧ ZeroWords extra

/-- A dispatch run that never writes a non-zero first word: the code of this
file touches `state.a` only in `real` and `__wbindgen_cb_drop`, and both keep a
zero word zero. -/
def KeepsZero (f : Dispatch) : Prop :=
  ∀ a b args w, w.state.a = 0 → (f a b args w).2.state.a = 0

/-- What the claim about a cached view asks of a getter `get` with cache variable
`slot`: the view returned wraps the current buffer and is what the cache holds
afterwards; when the cache was stale a new object of the right element type is
constructed, and only then; otherwise the cached object itself is returned and
nothing changes. -/
def ViewSpec (get : Nat → ViewCache → TypedArray × ViewCache)
    (slot : ViewCache → Option TypedArray) (kind : ViewKind) : Prop :=
  ∀ (memoryBuffer : Nat) (c : ViewCache),
    (get memoryBuffer c).1.buffer = memoryBuffer ∧
    slot (get memoryBuffer c).2 = some (get memoryBuffer c).1 ∧
    ((get memoryBuffer c).2.nextId = c.nextId + 1 ↔ Stale (slot c) memoryBuffer) ∧
    (Stale (slot c) memoryBuffer →
      (get memoryBuffer c).1 = { id := c.nextId, kind := kind, buffer := memoryBuffer }) ∧
    (¬ Stale (slot c) memoryBuffer →
      slot c = some (get memoryBuffer c).1 ∧ (get memoryBuffer c).2 = c)


/-- The world in which `real` calls `f` (after lines 198-200): the counter is one
higher, the first word is zeroed, and the call of `f` is logged. -/
def inFlight (args : List JsVal) (w : World) : World :=
  { w with
    state := { w.state with cnt := w.state.cnt + 1, a := 0 },
    calls := w.calls ++ [.dispatch w.state.a w.state.b args] }

/-- A dispatch run that touches nothing and completes with `out`. -/
def idle (out : Except JsVal JsVal) : Dispatch :=
  fun _ _ _ w => (out, w)

/-- A world used in examples: the trampoline `JsVal.obj 7`, made from the words
10 and 20 with destructor index 734, sits at handle 36; `cnt` is its counter. -/
def exampleWorld (cnt : Int) (calls : List Call) : World :=
  { table := { heap := initialHeap ++ [.obj 7], heap_next := .num 37 },
    trampoline := 7,
    state := { a := 10, b := 20, cnt := cnt, dtor := 734 },
    calls := calls }


/-! ## Array lemmas -/

theorem arraySet_length_of_lt {arr : List JsVal} {idx : Nat} (v : JsVal)
    (h : idx < arr.length) : (arraySet arr idx v).length = arr.length := by
  simp [arraySet, h]

theorem arraySet_length_of_ge {arr : List JsVal} {idx : Nat} (v : JsVal)
    (h : arr.length ≤ idx) : (arraySet arr idx v).length = idx + 1 := by
  have h1 : ¬ idx < arr.length := by omega
  simp [arraySet, h1]
  omega

theorem arrayGet_arraySet_same (arr : List JsVal) (idx : Nat) (v : JsVal) :
    arrayGet (arraySet arr idx v) idx = v := by
  unfold arrayGet arraySet
  split
  · next h => simp [List.getElem?_set, h]
  · next h =>
    have h1 : (arr ++ List.replicate (idx - arr.length) JsVal.undefined).length = idx := by
      simp; omega
    rw [List.getElem?_append_right (by omega)]
    simp [h1]

theorem arrayGet_arraySet_ne (arr : List JsVal) {idx j : Nat} (v : JsVal)
    (hne : j ≠ idx) : arrayGet (arraySet arr idx v) j = arrayGet arr j := by
  unfold arrayGet arraySet
  split
  · next h =>
    rw [List.getElem?_set_ne (Ne.symm hne)]
  · next h =>
    by_cases hj : j < arr.length
    · rw [List.append_assoc, List.getElem?_append_left hj]
    · have h2 : arr[j]? = none := List.getElem?_eq_none (by omega)
      rw [h2]
      by_cases hj2 : j < idx
      · rw [List.getElem?_append_left (by simp; omega),
          List.getElem?_append_right (by omega)]
        rw [List.getElem?_replicate]
        split <;> rfl
      · have h3 : (arr ++ List.replicate (idx - arr.length) JsVal.undefined ++ [v])[j]? = none :=
          List.getElem?_eq_none (by simp; omega)
        rw [h3]

theorem arrayGet_append_left {arr : List JsVal} {j : Nat} (x : JsVal)
    (h : j < arr.length) : arrayGet (arr ++ [x]) j = arrayGet arr j := by
  unfold arrayGet
  rw [List.getElem?_append_left h]

theorem arrayGet_append_length (arr : List JsVal) (x : JsVal) :
    arrayGet (arr ++ [x]) arr.length = x := by
  unfold arrayGet
  simp

theorem asIndex_num_nat (n : Nat) : (JsVal.num (n : Int)).asIndex = some n := by
  simp [JsVal.asIndex]

/-! ## The free list under the table operations -/

theorem FreeChain.mem_bounds {heap : List JsVal} {free : List Nat}
    (hc : FreeChain heap free) {a : Nat} (ha : a ∈ free) : 36 ≤ a ∧ a < heap.length := by
  induction free with
  | nil => cases ha
  | cons b rest ih =>
    obtain ⟨h1, h2, _, h4⟩ := hc
    rcases List.mem_cons.mp ha with rfl | hm
    · exact ⟨h1, h2⟩
    · exact ih h4 hm

theorem FreeChain.arraySet {heap : List JsVal} {free : List Nat}
    (hc : FreeChain heap free) {idx : Nat} (v : JsVal) (hidx : idx < heap.length)
    (hnot : idx ∉ free) : FreeChain (arraySet heap idx v) free := by
  induction free with
  | nil => trivial
  | cons b rest ih =>
    obtain ⟨h1, h2, h3, h4⟩ := hc
    have hb : b ≠ idx := fun e => hnot (e ▸ List.mem_cons_self _ _)
    refine ⟨h1, ?_, ?_, ih h4 (fun hm => hnot (List.mem_cons_of_mem _ hm))⟩
    · rw [arraySet_length_of_lt v hidx]; exact h2
    · rw [arrayGet_arraySet_ne _ v hb, arraySet_length_of_lt v hidx]; exact h3

theorem headD_tail_ne_of_nodup {a : Nat} {rest : List Nat} (n : Nat)
    (hn : (a :: rest).Nodup) (ha : a < n) : rest.headD n ≠ a := by
  cases rest with
  | nil => simp; omega
  | cons b r =>
    simp only [List.headD_cons]
    intro e
    subst e
    simp at hn

/-- What `addHeapObject` does in a well-formed table: it returns the head of the
free list (or `heap.length` when the list is empty), stores the value there,
leaves every other slot as it was, and the free list loses its head. -/
theorem addHeapObject_wellFormed {s : HeapState} {free : List Nat} (v : JsVal)
    (hw : WellFormed s free) :
    ∃ s1, addHeapObject v s = some (free.headD s.heap.length, s1) ∧
      WellFormed s1 free.tail ∧
      getObject (free.headD s.heap.length) s1 = v ∧
      (∀ j, j ≠ free.headD s.heap.length → getObject j s1 = getObject j s) ∧
      s1.heap.length = (if free = [] then s.heap.length + 1 else s.heap.length) := by
  obtain ⟨hres, hnext, hchain, hnd⟩ := hw
  cases free with
  | nil =>
    simp only [List.headD_nil] at hnext ⊢
    refine ⟨{ heap := arraySet (s.heap ++ [.num (s.heap.length + 1)]) s.heap.length v,
              heap_next := .num (s.heap.length + 1) }, ?_, ?_, ?_, ?_, ?_⟩
    · simp [addHeapObject, hnext, asIndex_num_nat, arrayGet_append_length]
    · refine ⟨?_, ?_, trivial, List.nodup_nil⟩
      · simp only
        rw [arraySet_length_of_lt v (by simp)]
        simp; omega
      · simp only [List.tail_nil, List.headD_nil]
        rw [arraySet_length_of_lt v (by simp)]
        simp
    · exact arrayGet_arraySet_same _ _ _
    · intro j hj
      simp only [getObject]
      rw [arrayGet_arraySet_ne _ v hj]
      by_cases hjl : j < s.heap.length
      · exact arrayGet_append_left _ hjl
      · unfold arrayGet
        rw [List.getElem?_eq_none (by simp; omega), List.getElem?_eq_none (by omega)]
    · simp only [if_true]
      rw [arraySet_length_of_lt v (by simp)]
      simp
  | cons a rest =>
    simp only [List.headD_cons] at hnext ⊢
    obtain ⟨h1, h2, h3, h4⟩ := hchain
    have hne : ¬ ((a : Int) = (s.heap.length : Int)) := by omega
    have hnot : a ∉ rest := (List.nodup_cons.mp hnd).1
    refine ⟨{ heap := arraySet s.heap a v, heap_next := .num (rest.headD s.heap.length) },
      ?_, ?_, ?_, ?_, ?_⟩
    · simp [addHeapObject, hnext, asIndex_num_nat, hne, h3]
    · refine ⟨?_, ?_, ?_, (List.nodup_cons.mp hnd).2⟩
      · simp only
        rw [arraySet_length_of_lt v h2]; exact hres
      · simp only [List.tail_cons]
        rw [arraySet_length_of_lt v h2]
      · exact h4.arraySet v h2 hnot
    · exact arrayGet_arraySet_same _ _ _
    · intro j hj
      exact arrayGet_arraySet_ne _ v hj
    · simp only [reduceCtorEq, if_false]
      exact arraySet_length_of_lt v h2

/-- What `dropObject` does to a live handle of a well-formed table: the handle
becomes the head of the free list and nothing else changes. -/
theorem dropObject_wellFormed {s : HeapState} {free : List Nat} {h : Nat}
    (hw : WellFormed s free) (hl : Live s free h) :
    WellFormed (dropObject h s) (h :: free) ∧
      (dropObject h s).heap.length = s.heap.length ∧
      (∀ j, j ≠ h → getObject j (dropObject h s) = getObject j s) := by
  obtain ⟨hres, hnext, hchain, hnd⟩ := hw
  obtain ⟨h36, hlt, hnot⟩ := hl
  have hge : ¬ h < 36 := by omega
  have hlen : (arraySet s.heap h s.heap_next).length = s.heap.length :=
    arraySet_length_of_lt _ hlt
  refine ⟨⟨?_, ?_, ?_, List.nodup_cons.mpr ⟨hnot, hnd⟩⟩, ?_, ?_⟩
  · simp only [dropObject, hge, if_false, hlen]; exact hres
  · simp [dropObject, hge]
  · refine ⟨h36, ?_, ?_, ?_⟩
    · simp only [dropObject, hge, if_false, hlen]; exact hlt
    · simp only [dropObject, hge, if_false, hlen]
      rw [arrayGet_arraySet_same]; exact hnext
    · simp only [dropObject, hge, if_false]
      exact hchain.arraySet _ hlt hnot
  · simp only [dropObject, hge, if_false, hlen]
  · intro j hj
    simp only [dropObject, hge, if_false, getObject]
    exact arrayGet_arraySet_ne _ _ hj

theorem dropObject_reserved (idx : Nat) (s : HeapState) (h : idx < 36) :
    dropObject idx s = s := by
  simp [dropObject, h]

theorem wellFormed_initial : WellFormed initialState [] := by
  refine ⟨by decide, rfl, trivial, List.nodup_nil⟩

/-! ## The invariant of disciplined runs -/

theorem Tracked.inv_initial : Tracked.initial.Inv [] := by
  refine ⟨wellFormed_initial, ?_, List.nodup_nil, ?_⟩
  · intro h
    simp only [Tracked.initial, List.not_mem_nil, false_iff, Live]
    intro hl
    have : initialState.heap.length = 36 := by decide
    omega
  · exact ⟨rfl, rfl, rfl, rfl⟩

theorem ReservedIntact.of_frame {s s1 : HeapState} (hs : ReservedIntact s)
    (hf : ∀ j, j < 36 → getObject j s1 = getObject j s) : ReservedIntact s1 := by
  obtain ⟨h1, h2, h3, h4⟩ := hs
  exact ⟨(hf 32 (by omega)).trans h1, (hf 33 (by omega)).trans h2,
    (hf 34 (by omega)).trans h3, (hf 35 (by omega)).trans h4⟩

theorem headD_fresh {s : HeapState} {free : List Nat} (hw : WellFormed s free) :
    36 ≤ free.headD s.heap.length ∧ ∀ h, Live s free h → h ≠ free.headD s.heap.length := by
  cases free with
  | nil =>
    refine ⟨hw.reserved, ?_⟩
    intro h hl
    simp only [List.headD_nil]
    exact Nat.ne_of_lt hl.2.1
  | cons a rest =>
    refine ⟨hw.chain.1, ?_⟩
    intro h hl e
    simp only [List.headD_cons] at e
    exact hl.2.2 (e ▸ List.mem_cons_self _ _)

/-- The step of `addHeapObject` on a tracked table keeps the invariant. -/
theorem Tracked.inv_add {t : Tracked} {free : List Nat} (v : JsVal) (hi : t.Inv free) :
    ∃ s1, addHeapObject v t.state = some (free.headD t.state.heap.length, s1) ∧
      Tracked.Inv { state := s1, live := free.headD t.state.heap.length :: t.live } free.tail ∧
      getObject (free.headD t.state.heap.length) s1 = v ∧
      (∀ j, j ≠ free.headD t.state.heap.length → getObject j s1 = getObject j t.state) := by
  obtain ⟨s1, hadd, hw1, hget, hframe, hlen⟩ := addHeapObject_wellFormed v hi.wf
  obtain ⟨h36, hfresh⟩ := headD_fresh hi.wf
  refine ⟨s1, hadd, ⟨hw1, ?_, ?_, ?_⟩, hget, hframe⟩
  · intro h
    simp only [List.mem_cons, hi.live_iff, Live]
    cases free with
    | nil =>
      simp only [List.headD_nil, List.tail_nil, List.not_mem_nil, not_false_eq_true,
        and_true, if_true] at hlen ⊢
      rw [hlen]
      have := hi.wf.reserved
      constructor
      · rintro (rfl | ⟨h1, h2⟩) <;> omega
      · intro ⟨h1, h2⟩
        by_cases e : h = t.state.heap.length
        · exact Or.inl e
        · exact Or.inr ⟨h1, by omega⟩
    | cons a rest =>
      simp only [List.headD_cons, List.tail_cons, List.mem_cons, not_or, reduceCtorEq,
        if_false] at hlen ⊢
      rw [hlen]
      have ha := hi.wf.chain
      have hnd := (List.nodup_cons.mp hi.wf.nodup).1
      constructor
      · rintro (rfl | ⟨h1, h2, h3, h4⟩)
        · exact ⟨ha.1, ha.2.1, hnd⟩
        · exact ⟨h1, h2, h4⟩
      · intro ⟨h1, h2, h3⟩
        by_cases e : h = a
        · exact Or.inl e
        · exact Or.inr ⟨h1, h2, e, h3⟩
  · refine List.nodup_cons.mpr ⟨?_, hi.nodup⟩
    intro hm
    exact hfresh _ ((hi.live_iff _).mp hm) rfl
  · refine hi.consts.of_frame ?_
    intro j hj
    exact hframe j (by omega)

/-- The step of `dropObject` on a tracked table keeps the invariant. -/
theorem Tracked.inv_drop {t : Tracked} {free : List Nat} {idx : Nat} (hi : t.Inv free)
    (hd : idx < 36 ∨ idx ∈ t.live) :
    ∃ free1, Tracked.Inv { state := dropObject idx t.state, live := t.live.erase idx } free1 ∧
      ∀ j, j ≠ idx → getObject j (dropObject idx t.state) = getObject j t.state := by
  by_cases h36 : idx < 36
  · have hnot : idx ∉ t.live := fun hm => by
      have := ((hi.live_iff _).mp hm).1
      omega
    rw [dropObject_reserved idx _ h36, List.erase_of_not_mem hnot]
    exact ⟨free, hi, fun _ _ => rfl⟩
  · have hm : idx ∈ t.live := hd.resolve_left h36
    have hl : Live t.state free idx := (hi.live_iff _).mp hm
    obtain ⟨hw1, hlen, hframe⟩ := dropObject_wellFormed hi.wf hl
    refine ⟨idx :: free, ⟨hw1, ?_, hi.nodup.erase _, ?_⟩, hframe⟩
    · intro h
      simp only [hi.nodup.mem_erase_iff, hi.live_iff, Live, hlen, List.mem_cons, not_or]
      tauto
    · refine hi.consts.of_frame ?_
      intro j hj
      exact hframe j (by omega)

theorem Tracked.inv_step {t t1 : Tracked} {free : List Nat} {op : Op} (hi : t.Inv free)
    (hs : t.step op = some t1) : ∃ free1, t1.Inv free1 := by
  cases op with
  | add v =>
    obtain ⟨s1, hadd, hinv, _, _⟩ := Tracked.inv_add v hi
    simp only [Tracked.step, hadd, Option.some.injEq] at hs
    exact ⟨_, hs ▸ hinv⟩
  | drop idx =>
    simp only [Tracked.step] at hs
    split at hs
    · next hd =>
      obtain ⟨free1, hinv, _⟩ := Tracked.inv_drop hi hd
      simp only [Option.some.injEq] at hs
      exact ⟨free1, hs ▸ hinv⟩
    · cases hs
  | take idx =>
    simp only [Tracked.step, takeObject] at hs
    split at hs
    · next hd =>
      obtain ⟨free1, hinv, _⟩ := Tracked.inv_drop hi hd
      simp only [Option.some.injEq] at hs
      exact ⟨free1, hs ▸ hinv⟩
    · cases hs

theorem Tracked.inv_run {ops : List Op} {t t1 : Tracked} {free : List Nat} (hi : t.Inv free)
    (hr : Tracked.run ops t = some t1) : ∃ free1, t1.Inv free1 := by
  induction ops generalizing t free with
  | nil =>
    simp only [Tracked.run, Option.some.injEq] at hr
    exact ⟨free, hr ▸ hi⟩
  | cons op ops ih =>
    simp only [Tracked.run] at hr
    split at hr
    · cases hr
    · next t2 hstep =>
      obtain ⟨free2, hi2⟩ := Tracked.inv_step hi hstep
      exact ih hi2 hr

/-- A call that does not release the live handle `h` leaves its slot alone and
leaves it live. -/
theorem Tracked.step_frame {t t1 : Tracked} {free : List Nat} {op : Op} {h : Nat}
    (hi : t.Inv free) (hm : h ∈ t.live) (ht : op.target ≠ some h)
    (hs : t.step op = some t1) :
    getObject h t1.state = getObject h t.state ∧ h ∈ t1.live := by
  cases op with
  | add v =>
    obtain ⟨s1, hadd, _, _, hframe⟩ := Tracked.inv_add v hi
    simp only [Tracked.step, hadd, Option.some.injEq] at hs
    subst hs
    have hne := (headD_fresh hi.wf).2 h ((hi.live_iff _).mp hm)
    exact ⟨hframe h hne, List.mem_cons_of_mem _ hm⟩
  | drop idx =>
    have hne : h ≠ idx := fun e => ht (by simp [Op.target, e])
    simp only [Tracked.step] at hs
    split at hs
    · next hd =>
      obtain ⟨_, _, hframe⟩ := Tracked.inv_drop hi hd
      simp only [Option.some.injEq] at hs
      subst hs
      exact ⟨hframe h hne, (List.mem_erase_of_ne hne).mpr hm⟩
    · cases hs
  | take idx =>
    have hne : h ≠ idx := fun e => ht (by simp [Op.target, e])
    simp only [Tracked.step, takeObject] at hs
    split at hs
    · next hd =>
      obtain ⟨_, _, hframe⟩ := Tracked.inv_drop hi hd
      simp only [Option.some.injEq] at hs
      subst hs
      exact ⟨hframe h hne, (List.mem_erase_of_ne hne).mpr hm⟩
    · cases hs

theorem Tracked.run_frame {ops : List Op} {t t1 : Tracked} {free : List Nat} {h : Nat}
    (hi : t.Inv free) (hm : h ∈ t.live) (ht : ∀ op ∈ ops, op.target ≠ some h)
    (hr : Tracked.run ops t = some t1) : getObject h t1.state = getObject h t.state := by
  induction ops generalizing t free with
  | nil =>
    simp only [Tracked.run, Option.some.injEq] at hr
    rw [hr]
  | cons op ops ih =>
    simp only [Tracked.run] at hr
    split at hr
    · cases hr
    · next t2 hstep =>
      obtain ⟨free2, hi2⟩ := Tracked.inv_step hi hstep
      obtain ⟨hg, hm2⟩ := Tracked.step_frame hi hm (ht op (List.mem_cons_self _ _)) hstep
      rw [ih hi2 hm2 (fun o ho => ht o (List.mem_cons_of_mem _ ho)) hr, hg]

/-- On a table that satisfies the invariant a call fails only by breaking the
discipline: `addHeapObject` always returns. -/
theorem Tracked.step_eq_none_iff {t : Tracked} {free : List Nat} (hi : t.Inv free) (op : Op) :
    t.step op = none ↔ ∃ idx, op.target = some idx ∧ ¬ (idx < 36 ∨ idx ∈ t.live) := by
  cases op with
  | add v =>
    obtain ⟨s1, hadd, _⟩ := Tracked.inv_add v hi
    simp [Tracked.step, hadd, Op.target]
  | drop idx =>
    simp only [Tracked.step, Op.target, Option.some.injEq, exists_eq_left']
    split <;> simp_all
  | take idx =>
    simp only [Tracked.step, Op.target, Option.some.injEq, exists_eq_left']
    split <;> simp_all

/-! ## Properties of the handle table -/

/-- C1: in every table reached from the initial one by disciplined calls,
`addHeapObject v` returns a handle `h` with `getObject h = v` right away, and
`getObject h` is still `v` after any further disciplined calls none of which
releases `h`. -/
theorem addHeapObject_getObject (ops : List Op) (t : Tracked) (v : JsVal)
    (hrun : Tracked.run ops Tracked.initial = some t) :
    ∃ h s1, addHeapObject v t.state = some (h, s1) ∧ getObject h s1 = v ∧
      ∀ (ops1 : List Op) (t1 : Tracked), (∀ op ∈ ops1, op.target ≠ some h) →
        Tracked.run ops1 { state := s1, live := h :: t.live } = some t1 →
        getObject h t1.state = v := by
  obtain ⟨free, hi⟩ := Tracked.inv_run Tracked.inv_initial hrun
  obtain ⟨s1, hadd, hinv, hget, _⟩ := Tracked.inv_add v hi
  refine ⟨_, s1, hadd, hget, ?_⟩
  intro ops1 t1 ht hr
  rw [Tracked.run_frame hinv (List.mem_cons_self _ _) ht hr]
  exact hget

theorem addHeapObject_getObject_witness :
    Tracked.run [Op.add (.obj 1), Op.add (.obj 2), Op.drop 36] Tracked.initial =
        some { state := { heap := initialHeap ++ [.num 38, .obj 2], heap_next := .num 36 },
               live := [37] } ∧
      ∃ h s1, addHeapObject (.str [104, 105])
          { heap := initialHeap ++ [.num 38, .obj 2], heap_next := .num 36 } = some (h, s1) ∧
        getObject h s1 = .str [104, 105] ∧
        ∀ (ops1 : List Op) (t1 : Tracked), (∀ op ∈ ops1, op.target ≠ some h) →
          Tracked.run ops1 { state := s1, live := h :: [37] } = some t1 →
          getObject h t1.state = .str [104, 105] :=
  ⟨by decide, addHeapObject_getObject [Op.add (.obj 1), Op.add (.obj 2), Op.drop 36]
    { state := { heap := initialHeap ++ [.num 38, .obj 2], heap_next := .num 36 }, live := [37] }
    (.str [104, 105]) (by decide)⟩

/-- C2: in a well-formed table, after `dropObject h` on a live handle `h` the
next `addHeapObject` returns exactly `h` and the heap array keeps its length;
and when `heap_next` equals `heap.length` (empty free list) `addHeapObject`
returns the old `heap.length` and the array grows by exactly one slot. -/
theorem addHeapObject_reuses_dropped (s : HeapState) (free : List Nat) (h : Nat) (v : JsVal)
    (hw : WellFormed s free) (hl : Live s free h) :
    (∃ s2, addHeapObject v (dropObject h s) = some (h, s2) ∧
      s2.heap.length = s.heap.length) ∧
    (s.heap_next = .num s.heap.length →
      ∃ s1, addHeapObject v s = some (s.heap.length, s1) ∧
        s1.heap.length = s.heap.length + 1) := by
  constructor
  · obtain ⟨hw1, hlen, _⟩ := dropObject_wellFormed hw hl
    obtain ⟨s2, hadd, _, _, _, hlen2⟩ := addHeapObject_wellFormed v hw1
    refine ⟨s2, by simpa using hadd, ?_⟩
    simp only [reduceCtorEq, if_false] at hlen2
    rw [hlen2, hlen]
  · intro hn
    have hlt : s.heap.length < (s.heap ++ [JsVal.num (↑s.heap.length + 1)]).length := by simp
    refine ⟨{ heap := arraySet (s.heap ++ [.num (s.heap.length + 1)]) s.heap.length v,
              heap_next := .num (s.heap.length + 1) }, ?_, ?_⟩
    · simp [addHeapObject, hn, asIndex_num_nat, arrayGet_append_length]
    · simp only
      rw [arraySet_length_of_lt v hlt]
      simp

theorem addHeapObject_reuses_dropped_witness :
    (WellFormed { heap := initialHeap ++ [.obj 1, .obj 2], heap_next := .num 38 } [] ∧
      Live { heap := initialHeap ++ [.obj 1, .obj 2], heap_next := .num 38 } [] 36) ∧
    ((∃ s2, addHeapObject (.obj 3)
          (dropObject 36 { heap := initialHeap ++ [.obj 1, .obj 2], heap_next := .num 38 }) =
          some (36, s2) ∧
        s2.heap.length = (initialHeap ++ [JsVal.obj 1, JsVal.obj 2]).length) ∧
      ((JsVal.num 38 = .num (initialHeap ++ [JsVal.obj 1, JsVal.obj 2]).length) →
        ∃ s1, addHeapObject (.obj 3)
            { heap := initialHeap ++ [.obj 1, .obj 2], heap_next := .num 38 } =
            some ((initialHeap ++ [JsVal.obj 1, JsVal.obj 2]).length, s1) ∧
          s1.heap.length = (initialHeap ++ [JsVal.obj 1, JsVal.obj 2]).length + 1)) :=
  have hw : WellFormed { heap := initialHeap ++ [.obj 1, .obj 2], heap_next := .num 38 } [] :=
    ⟨by decide, rfl, trivial, List.nodup_nil⟩
  have hl : Live { heap := initialHeap ++ [.obj 1, .obj 2], heap_next := .num 38 } [] 36 :=
    ⟨by decide, by decide, by decide⟩
  ⟨⟨hw, hl⟩, addHeapObject_reuses_dropped _ _ 36 (.obj 3) hw hl⟩

/-- C3: in every table reached from the initial one by disciplined calls (drops
and takes on live handles or on indices below 36), `addHeapObject` returns a
handle that is at least 36 and differs from every live handle. -/
theorem addHeapObject_fresh (ops : List Op) (t : Tracked) (v : JsVal)
    (hrun : Tracked.run ops Tracked.initial = some t) :
    ∃ h s1, addHeapObject v t.state = some (h, s1) ∧ 36 ≤ h ∧ h ∉ t.live := by
  obtain ⟨free, hi⟩ := Tracked.inv_run Tracked.inv_initial hrun
  obtain ⟨s1, hadd, _⟩ := addHeapObject_wellFormed v hi.wf
  obtain ⟨h36, hfresh⟩ := headD_fresh hi.wf
  exact ⟨_, s1, hadd, h36, fun hm => hfresh _ ((hi.live_iff _).mp hm) rfl⟩

theorem addHeapObject_fresh_witness :
    Tracked.run [Op.add (.obj 1), Op.add (.obj 2), Op.drop 33, Op.take 36, Op.add .null]
        Tracked.initial =
        some { state := { heap := initialHeap ++ [.null, .obj 2], heap_next := .num 38 },
               live := [36, 37] } ∧
      ∃ h s1, addHeapObject (.bool true)
          { heap := initialHeap ++ [.null, .obj 2], heap_next := .num 38 } = some (h, s1) ∧
        36 ≤ h ∧ h ∉ [36, 37] :=
  ⟨by decide, addHeapObject_fresh
    [Op.add (.obj 1), Op.add (.obj 2), Op.drop 33, Op.take 36, Op.add .null]
    { state := { heap := initialHeap ++ [.null, .obj 2], heap_next := .num 38 },
      live := [36, 37] }
    (.bool true) (by decide)⟩

/-- C4: for every table state and every index below 36, `dropObject` changes
neither the heap array nor `heap_next`; so in every table reached by disciplined
calls the reserved handles 32, 33, 34, 35 still resolve to undefined, null, true
and false after such a drop, as they do in the initial state. -/
theorem dropObject_reserved_noop (s : HeapState) (idx : Nat) (ops : List Op) (t : Tracked)
    (hidx : idx < 36) (hrun : Tracked.run ops Tracked.initial = some t) :
    dropObject idx s = s ∧
      ReservedIntact initialState ∧
      getObject 32 (dropObject idx t.state) = .undefined ∧
      getObject 33 (dropObject idx t.state) = .null ∧
      getObject 34 (dropObject idx t.state) = .bool true ∧
      getObject 35 (dropObject idx t.state) = .bool false := by
  obtain ⟨free, hi⟩ := Tracked.inv_run Tracked.inv_initial hrun
  refine ⟨dropObject_reserved idx s hidx, Tracked.inv_initial.consts, ?_⟩
  rw [dropObject_reserved idx _ hidx]
  exact hi.consts

theorem dropObject_reserved_noop_witness :
    (34 < 36 ∧
      Tracked.run [Op.add (.obj 1), Op.drop 36] Tracked.initial =
        some { state := { heap := initialHeap ++ [.num 37], heap_next := .num 36 },
               live := [] }) ∧
    (dropObject 34 { heap := [.obj 7], heap_next := .null } =
        { heap := [.obj 7], heap_next := .null } ∧
      ReservedIntact initialState ∧
      getObject 32 (dropObject 34
        { heap := initialHeap ++ [.num 37], heap_next := .num 36 }) = .undefined ∧
      getObject 33 (dropObject 34
        { heap := initialHeap ++ [.num 37], heap_next := .num 36 }) = .null ∧
      getObject 34 (dropObject 34
        { heap := initialHeap ++ [.num 37], heap_next := .num 36 }) = .bool true ∧
      getObject 35 (dropObject 34
        { heap := initialHeap ++ [.num 37], heap_next := .num 36 }) = .bool false) :=
  ⟨⟨by decide, by decide⟩,
    dropObject_reserved_noop { heap := [.obj 7], heap_next := .null } 34
      [Op.add (.obj 1), Op.drop 36]
      { state := { heap := initialHeap ++ [.num 37], heap_next := .num 36 }, live := [] }
      (by decide) (by decide)⟩

/-- C5 as stated fails: the handle 36 returned by `addHeapObject("hello")` on
the initial table is freed through `__wbindgen_object_drop_ref`, and
`getObject(36)` then returns the number 37, the free-list link left in the slot;
nothing faults. -/
theorem freed_handle_resolves_to_link :
    ∃ s1, addHeapObject (.str [104, 101, 108, 108, 111]) initialState = some (36, s1) ∧
      getObject 36 s1 = .str [104, 101, 108, 108, 111] ∧
      getObject 36 (__wbindgen_object_drop_ref 36 s1) = .num 37 :=
  ⟨{ heap := initialHeap ++ [.str [104, 101, 108, 108, 111]], heap_next := .num 37 },
    by decide, by decide, by decide⟩

/-- C5 amended: once a live handle `h` (one obtained from `addHeapObject` and not
yet released, so `h >= 36`) has been freed by `dropObject(h)` or
`__wbindgen_object_drop_ref(h)`, an immediately following `getObject(h)` returns
a value, namely the number `heap_next` held just before the free (the free-list
link now stored in the slot). -/
theorem getObject_after_free (ops : List Op) (t : Tracked) (h : Nat)
    (hrun : Tracked.run ops Tracked.initial = some t) (hlive : h ∈ t.live) :
    36 ≤ h ∧ ∃ n : Nat, t.state.heap_next = .num n ∧
      getObject h (dropObject h t.state) = .num n ∧
      getObject h (__wbindgen_object_drop_ref h t.state) = .num n := by
  obtain ⟨free, hi⟩ := Tracked.inv_run Tracked.inv_initial hrun
  have hl := (hi.live_iff _).mp hlive
  have hge : ¬ h < 36 := by have := hl.1; omega
  have hget : getObject h (dropObject h t.state) = t.state.heap_next := by
    simp only [dropObject, hge, if_false, getObject]
    exact arrayGet_arraySet_same _ _ _
  refine ⟨hl.1, free.headD t.state.heap.length, hi.wf.next, ?_, ?_⟩
  · rw [hget, hi.wf.next]
  · simp only [__wbindgen_object_drop_ref, takeObject]
    rw [hget, hi.wf.next]

theorem getObject_after_free_witness :
    (Tracked.run [Op.add (.str [104, 101, 108, 108, 111])] Tracked.initial =
        some { state := { heap := initialHeap ++ [.str [104, 101, 108, 108, 111]],
                          heap_next := .num 37 },
               live := [36] } ∧ 36 ∈ [36]) ∧
    (36 ≤ 36 ∧ ∃ n : Nat, JsVal.num 37 = .num n ∧
      getObject 36 (dropObject 36
        { heap := initialHeap ++ [.str [104, 101, 108, 108, 111]],
          heap_next := .num 37 }) = .num n ∧
      getObject 36 (__wbindgen_object_drop_ref 36
        { heap := initialHeap ++ [.str [104, 101, 108, 108, 111]],
          heap_next := .num 37 }) = .num n) :=
  ⟨⟨by decide, by decide⟩,
    getObject_after_free [Op.add (.str [104, 101, 108, 108, 111])]
      { state := { heap := initialHeap ++ [.str [104, 101, 108, 108, 111]],
                   heap_next := .num 37 },
        live := [36] }
      36 (by decide) (by decide)⟩

/-- C6: in a well-formed table, `__wbindgen_object_clone_ref(h)` on a live
handle `h` returns a handle different from `h` that resolves to the value of
`h`; `h` keeps its value, and both handles are live in the resulting table,
which is well formed again. -/
theorem clone_ref_fresh_same_value (s : HeapState) (free : List Nat) (h : Nat)
    (hw : WellFormed s free) (hl : Live s free h) :
    ∃ h1 s1, __wbindgen_object_clone_ref h s = some (h1, s1) ∧ h1 ≠ h ∧
      getObject h1 s1 = getObject h s ∧ getObject h s1 = getObject h s ∧
      WellFormed s1 free.tail ∧ Live s1 free.tail h ∧ Live s1 free.tail h1 := by
  obtain ⟨s1, hadd, hw1, hget, hframe, hlen⟩ := addHeapObject_wellFormed (getObject h s) hw
  obtain ⟨h36, hfresh⟩ := headD_fresh hw
  have hne := hfresh h hl
  refine ⟨_, s1, hadd, Ne.symm hne, hget, hframe h hne, hw1, ?_, ?_⟩
  · refine ⟨hl.1, ?_, fun hm => hl.2.2 (List.mem_of_mem_tail hm)⟩
    rw [hlen]
    have := hl.2.1
    split <;> omega
  · refine ⟨h36, ?_, ?_⟩
    · rw [hlen]
      cases free with
      | nil => simp
      | cons a rest => simpa using hw.chain.2.1
    · cases free with
      | nil => simp
      | cons a rest => simpa using (List.nodup_cons.mp hw.nodup).1

theorem clone_ref_fresh_same_value_witness :
    (WellFormed { heap := initialHeap ++ [.obj 1, .num 38], heap_next := .num 37 } [37] ∧
      Live { heap := initialHeap ++ [.obj 1, .num 38], heap_next := .num 37 } [37] 36) ∧
    ∃ h1 s1, __wbindgen_object_clone_ref 36
        { heap := initialHeap ++ [.obj 1, .num 38], heap_next := .num 37 } = some (h1, s1) ∧
      h1 ≠ 36 ∧
      getObject h1 s1 =
        getObject 36 { heap := initialHeap ++ [.obj 1, .num 38], heap_next := .num 37 } ∧
      getObject 36 s1 =
        getObject 36 { heap := initialHeap ++ [.obj 1, .num 38], heap_next := .num 37 } ∧
      WellFormed s1 [37].tail ∧ Live s1 [37].tail 36 ∧ Live s1 [37].tail h1 :=
  have hw : WellFormed { heap := initialHeap ++ [.obj 1, .num 38], heap_next := .num 37 }
      [37] :=
    ⟨by decide, rfl, ⟨by decide, by decide, by decide, trivial⟩, by decide⟩
  have hl : Live { heap := initialHeap ++ [.obj 1, .num 38], heap_next := .num 37 } [37] 36 :=
    ⟨by decide, by decide, by decide⟩
  ⟨⟨hw, hl⟩, clone_ref_fresh_same_value _ _ 36 hw hl⟩

/-- C7: for every table state and index, `takeObject(idx)` returns the value
`getObject(idx)` had before the call and leaves the table exactly as
`dropObject(idx)` alone would; for `idx >= 36` the slot `idx` then holds the
previous `heap_next`, `heap_next` is `idx`, and every other slot reads as
before. -/
theorem takeObject_spec (s : HeapState) (idx : Nat) :
    (takeObject idx s).1 = getObject idx s ∧
      (takeObject idx s).2 = dropObject idx s ∧
      (36 ≤ idx →
        getObject idx (takeObject idx s).2 = s.heap_next ∧
        (takeObject idx s).2.heap_next = .num idx ∧
        ∀ j, j ≠ idx → getObject j (takeObject idx s).2 = getObject j s) := by
  refine ⟨rfl, rfl, ?_⟩
  intro h36
  have hge : ¬ idx < 36 := by omega
  simp only [takeObject, dropObject, hge, if_false, getObject]
  exact ⟨arrayGet_arraySet_same _ _ _, trivial, fun j hj => arrayGet_arraySet_ne _ _ hj⟩

theorem takeObject_spec_witness :
    36 ≤ 37 ∧
      (takeObject 37 { heap := initialHeap ++ [.obj 1, .obj 2], heap_next := .num 38 }).1 =
        .obj 2 ∧
      (takeObject 37 { heap := initialHeap ++ [.obj 1, .obj 2], heap_next := .num 38 }).2 =
        { heap := initialHeap ++ [.obj 1, .num 38], heap_next := .num 37 } :=
  have hs := takeObject_spec
    { heap := initialHeap ++ [.obj 1, .obj 2], heap_next := .num 38 } 37
  ⟨by decide, hs.1.trans (by decide), hs.2.1.trans (by decide)⟩

/-! ## The UTF-8 decoder, byte sequence by byte sequence -/

theorem Utf8Decoder.run_one (f : Bool) (b0 : Nat) (rest : List Nat) (h0 : b0 ≤ 0x7F) :
    Utf8Decoder.run f Utf8Decoder.start (b0 :: rest) =
      (Utf8Decoder.run f Utf8Decoder.start rest).map (fun r => b0 :: r) := by
  simp [Utf8Decoder.run, Utf8Decoder.handler, Utf8Decoder.start, h0]

theorem Utf8Decoder.run_two (f : Bool) (b0 b1 : Nat) (rest : List Nat)
    (h0 : 0xC2 ≤ b0 ∧ b0 ≤ 0xDF) (h1 : 0x80 ≤ b1 ∧ b1 ≤ 0xBF) :
    Utf8Decoder.run f Utf8Decoder.start (b0 :: b1 :: rest) =
      (Utf8Decoder.run f Utf8Decoder.start rest).map
        (fun r => (b0 % 0x20 * 0x40 + b1 % 0x40) :: r) := by
  have e0 : ¬ b0 ≤ 0x7F := by omega
  have e1 : ¬ (b1 < 0x80 ∨ 0xBF < b1) := by omega
  simp [Utf8Decoder.run, Utf8Decoder.handler, Utf8Decoder.start, h0, e0, e1]

theorem Utf8Decoder.run_three (f : Bool) (b0 b1 b2 : Nat) (rest : List Nat)
    (h0 : 0xE0 ≤ b0 ∧ b0 ≤ 0xEF)
    (h1 : (if b0 = 0xE0 then 0xA0 else 0x80) ≤ b1 ∧ b1 ≤ (if b0 = 0xED then 0x9F else 0xBF))
    (h2 : 0x80 ≤ b2 ∧ b2 ≤ 0xBF) :
    Utf8Decoder.run f Utf8Decoder.start (b0 :: b1 :: b2 :: rest) =
      (Utf8Decoder.run f Utf8Decoder.start rest).map
        (fun r => ((b0 % 0x10 * 0x40 + b1 % 0x40) * 0x40 + b2 % 0x40) :: r) := by
  have e0 : ¬ b0 ≤ 0x7F := by omega
  have e0a : ¬ (0xC2 ≤ b0 ∧ b0 ≤ 0xDF) := by omega
  have e1 : ¬ (b1 < (if b0 = 0xE0 then 0xA0 else 0x80) ∨
      (if b0 = 0xED then 0x9F else 0xBF) < b1) := by omega
  have e2 : ¬ (b2 < 0x80 ∨ 0xBF < b2) := by omega
  simp [Utf8Decoder.run, Utf8Decoder.handler, Utf8Decoder.start, h0, e0, e0a, e1, e2]

theorem Utf8Decoder.run_four (f : Bool) (b0 b1 b2 b3 : Nat) (rest : List Nat)
    (h0 : 0xF0 ≤ b0 ∧ b0 ≤ 0xF4)
    (h1 : (if b0 = 0xF0 then 0x90 else 0x80) ≤ b1 ∧ b1 ≤ (if b0 = 0xF4 then 0x8F else 0xBF))
    (h2 : 0x80 ≤ b2 ∧ b2 ≤ 0xBF) (h3 : 0x80 ≤ b3 ∧ b3 ≤ 0xBF) :
    Utf8Decoder.run f Utf8Decoder.start (b0 :: b1 :: b2 :: b3 :: rest) =
      (Utf8Decoder.run f Utf8Decoder.start rest).map
        (fun r =>
          (((b0 % 0x8 * 0x40 + b1 % 0x40) * 0x40 + b2 % 0x40) * 0x40 + b3 % 0x40) :: r) := by
  have e0 : ¬ b0 ≤ 0x7F := by omega
  have e0a : ¬ (0xC2 ≤ b0 ∧ b0 ≤ 0xDF) := by omega
  have e0b : ¬ (0xE0 ≤ b0 ∧ b0 ≤ 0xEF) := by omega
  have e1 : ¬ (b1 < (if b0 = 0xF0 then 0x90 else 0x80) ∨
      (if b0 = 0xF4 then 0x8F else 0xBF) < b1) := by omega
  have e2 : ¬ (b2 < 0x80 ∨ 0xBF < b2) := by omega
  have e3 : ¬ (b3 < 0x80 ∨ 0xBF < b3) := by omega
  simp [Utf8Decoder.run, Utf8Decoder.handler, Utf8Decoder.start, h0, e0, e0a, e0b, e1, e2, e3]

theorem isScalarValue_iff (cp : Nat) :
    isScalarValue cp = true ↔ cp < 0xD800 ∨ (0xE000 ≤ cp ∧ cp < 0x110000) := by
  simp [isScalarValue]

/-- Decoding the bytes of one scalar value gives the scalar value back. -/
theorem Utf8Decoder.run_encodeScalar (f : Bool) (cp : Nat) (rest : List Nat)
    (h : isScalarValue cp = true) :
    Utf8Decoder.run f Utf8Decoder.start (utf8EncodeScalar cp ++ rest) =
      (Utf8Decoder.run f Utf8Decoder.start rest).map (fun r => cp :: r) := by
  rw [isScalarValue_iff] at h
  unfold utf8EncodeScalar
  split
  · next c1 => exact Utf8Decoder.run_one f cp rest (by omega)
  · split
    · next c1 c2 =>
      have e := Utf8Decoder.run_two f (0xC0 + cp / 0x40) (0x80 + cp % 0x40) rest
        (by omega) (by omega)
      have ecp : (0xC0 + cp / 0x40) % 0x20 * 0x40 + (0x80 + cp % 0x40) % 0x40 = cp := by omega
      rw [ecp] at e
      exact e
    · split
      · next c1 c2 c3 =>
        have e := Utf8Decoder.run_three f (0xE0 + cp / 0x1000) (0x80 + cp / 0x40 % 0x40)
          (0x80 + cp % 0x40) rest (by omega) (by split <;> split <;> omega) (by omega)
        have ecp : ((0xE0 + cp / 0x1000) % 0x10 * 0x40 + (0x80 + cp / 0x40 % 0x40) % 0x40) * 0x40
            + (0x80 + cp % 0x40) % 0x40 = cp := by omega
        rw [ecp] at e
        exact e
      · next c1 c2 c3 =>
        have e := Utf8Decoder.run_four f (0xF0 + cp / 0x40000) (0x80 + cp / 0x1000 % 0x40)
          (0x80 + cp / 0x40 % 0x40) (0x80 + cp % 0x40) rest (by omega)
          (by split <;> split <;> omega) (by omega) (by omega)
        have ecp : (((0xF0 + cp / 0x40000) % 0x8 * 0x40 + (0x80 + cp / 0x1000 % 0x40) % 0x40)
            * 0x40 + (0x80 + cp / 0x40 % 0x40) % 0x40) * 0x40 + (0x80 + cp % 0x40) % 0x40
            = cp := by omega
        rw [ecp] at e
        exact e

/-- Decoding the encoding of scalar values gives them back. -/
theorem Utf8Decoder.run_encodeScalars (f : Bool) (cps : List Nat)
    (h : ∀ cp ∈ cps, isScalarValue cp = true) :
    Utf8Decoder.run f Utf8Decoder.start (utf8EncodeScalars cps) = .ok cps := by
  induction cps with
  | nil => simp [utf8EncodeScalars, Utf8Decoder.run, Utf8Decoder.start]
  | cons cp rest ih =>
    rw [utf8EncodeScalars, Utf8Decoder.run_encodeScalar f cp _ (h cp (List.mem_cons_self _ _)),
      ih (fun c hc => h c (List.mem_cons_of_mem _ hc))]
    rfl


theorem Except.map_eq_ok {ε α β : Type} {f : α → β} {x : Except ε α} {b : β}
    (h : x.map f = .ok b) : ∃ a, x = .ok a ∧ b = f a := by
  cases x with
  | error e => cases h
  | ok a =>
    refine ⟨a, rfl, ?_⟩
    simp only [Except.map, Except.ok.injEq] at h
    exact h.symm

theorem utf8EncodeScalar_two (b0 b1 : Nat) (h0 : 0xC2 ≤ b0 ∧ b0 ≤ 0xDF)
    (h1 : 0x80 ≤ b1 ∧ b1 ≤ 0xBF) :
    isScalarValue (b0 % 0x20 * 0x40 + b1 % 0x40) = true ∧
      utf8EncodeScalar (b0 % 0x20 * 0x40 + b1 % 0x40) = [b0, b1] := by
  refine ⟨(isScalarValue_iff _).mpr (by omega), ?_⟩
  rw [utf8EncodeScalar, if_neg (by omega), if_pos (by omega)]
  have e0 : 0xC0 + (b0 % 0x20 * 0x40 + b1 % 0x40) / 0x40 = b0 := by omega
  have e1 : 0x80 + (b0 % 0x20 * 0x40 + b1 % 0x40) % 0x40 = b1 := by omega
  rw [e0, e1]

theorem utf8EncodeScalar_three (b0 b1 b2 : Nat) (h0 : 0xE0 ≤ b0 ∧ b0 ≤ 0xEF)
    (h1 : (if b0 = 0xE0 then 0xA0 else 0x80) ≤ b1 ∧ b1 ≤ (if b0 = 0xED then 0x9F else 0xBF))
    (h2 : 0x80 ≤ b2 ∧ b2 ≤ 0xBF) :
    isScalarValue ((b0 % 0x10 * 0x40 + b1 % 0x40) * 0x40 + b2 % 0x40) = true ∧
      utf8EncodeScalar ((b0 % 0x10 * 0x40 + b1 % 0x40) * 0x40 + b2 % 0x40) = [b0, b1, b2] := by
  have h1' : (b0 = 0xE0 → 0xA0 ≤ b1) ∧ 0x80 ≤ b1 ∧ (b0 = 0xED → b1 ≤ 0x9F) ∧ b1 ≤ 0xBF := by
    split_ifs at h1 <;> omega
  refine ⟨(isScalarValue_iff _).mpr (by omega), ?_⟩
  rw [utf8EncodeScalar, if_neg (by omega), if_neg (by omega), if_pos (by omega)]
  have e0 : 0xE0 + ((b0 % 0x10 * 0x40 + b1 % 0x40) * 0x40 + b2 % 0x40) / 0x1000 = b0 := by
    omega
  have e1 : 0x80 + ((b0 % 0x10 * 0x40 + b1 % 0x40) * 0x40 + b2 % 0x40) / 0x40 % 0x40 = b1 := by
    omega
  have e2 : 0x80 + ((b0 % 0x10 * 0x40 + b1 % 0x40) * 0x40 + b2 % 0x40) % 0x40 = b2 := by
    omega
  rw [e0, e1, e2]

theorem utf8EncodeScalar_four (b0 b1 b2 b3 : Nat) (h0 : 0xF0 ≤ b0 ∧ b0 ≤ 0xF4)
    (h1 : (if b0 = 0xF0 then 0x90 else 0x80) ≤ b1 ∧ b1 ≤ (if b0 = 0xF4 then 0x8F else 0xBF))
    (h2 : 0x80 ≤ b2 ∧ b2 ≤ 0xBF) (h3 : 0x80 ≤ b3 ∧ b3 ≤ 0xBF) :
    isScalarValue (((b0 % 0x8 * 0x40 + b1 % 0x40) * 0x40 + b2 % 0x40) * 0x40 + b3 % 0x40)
        = true ∧
      utf8EncodeScalar (((b0 % 0x8 * 0x40 + b1 % 0x40) * 0x40 + b2 % 0x40) * 0x40 + b3 % 0x40)
        = [b0, b1, b2, b3] := by
  have h1' : (b0 = 0xF0 → 0x90 ≤ b1) ∧ 0x80 ≤ b1 ∧ (b0 = 0xF4 → b1 ≤ 0x8F) ∧ b1 ≤ 0xBF := by
    split_ifs at h1 <;> omega
  refine ⟨(isScalarValue_iff _).mpr (by omega), ?_⟩
  rw [utf8EncodeScalar, if_neg (by omega), if_neg (by omega), if_neg (by omega)]
  have e0 : 0xF0 + ((((b0 % 0x8 * 0x40 + b1 % 0x40) * 0x40 + b2 % 0x40) * 0x40 + b3 % 0x40))
      / 0x40000 = b0 := by omega
  have e1 : 0x80 + ((((b0 % 0x8 * 0x40 + b1 % 0x40) * 0x40 + b2 % 0x40) * 0x40 + b3 % 0x40))
      / 0x1000 % 0x40 = b1 := by omega
  have e2 : 0x80 + ((((b0 % 0x8 * 0x40 + b1 % 0x40) * 0x40 + b2 % 0x40) * 0x40 + b3 % 0x40))
      / 0x40 % 0x40 = b2 := by omega
  have e3 : 0x80 + ((((b0 % 0x8 * 0x40 + b1 % 0x40) * 0x40 + b2 % 0x40) * 0x40 + b3 % 0x40))
      % 0x40 = b3 := by omega
  rw [e0, e1, e2, e3]


theorem utf8_sound_step {bs r o out : List Nat} {cp : Nat}
    (hsc : isScalarValue cp = true) (henc : utf8EncodeScalar cp = bs)
    (ho : out = cp :: o)
    (ih : (∀ c ∈ o, isScalarValue c = true) ∧ utf8EncodeScalars o = r) :
    (∀ c ∈ out, isScalarValue c = true) ∧ utf8EncodeScalars out = bs ++ r := by
  subst ho
  refine ⟨?_, ?_⟩
  · intro c hc
    rcases List.mem_cons.mp hc with rfl | hm
    · exact hsc
    · exact ih.1 c hm
  · rw [utf8EncodeScalars, henc, ih.2]

/-- In fatal mode a decode that succeeds returns scalar values, and the input is
their encoding. -/
theorem Utf8Decoder.run_fatal_sound (n : Nat) :
    ∀ (bytes out : List Nat), bytes.length ≤ n →
      Utf8Decoder.run true Utf8Decoder.start bytes = .ok out →
      (∀ cp ∈ out, isScalarValue cp = true) ∧ utf8EncodeScalars out = bytes := by
  induction n with
  | zero =>
    intro bytes out hl h
    have hb : bytes = [] := List.length_eq_zero.mp (by omega)
    subst hb
    simp [Utf8Decoder.run, Utf8Decoder.start] at h
    subst h
    simp [utf8EncodeScalars]
  | succ n ih =>
    intro bytes out hl h
    cases bytes with
    | nil =>
      simp [Utf8Decoder.run, Utf8Decoder.start] at h
      subst h
      simp [utf8EncodeScalars]
    | cons b0 rest =>
      simp only [List.length_cons] at hl
      by_cases c1 : b0 ≤ 0x7F
      · rw [Utf8Decoder.run_one _ _ _ c1] at h
        obtain ⟨o, ho, hout⟩ := Except.map_eq_ok h
        have henc : utf8EncodeScalar b0 = [b0] := by
          rw [utf8EncodeScalar, if_pos (by omega)]
        exact utf8_sound_step ((isScalarValue_iff _).mpr (by omega)) henc hout
          (ih rest o (by omega) ho)
      · by_cases c2 : 0xC2 ≤ b0 ∧ b0 ≤ 0xDF
        · cases rest with
          | nil => simp [Utf8Decoder.run, Utf8Decoder.handler, Utf8Decoder.start, c1, c2] at h
          | cons b1 r =>
            by_cases d1 : 0x80 ≤ b1 ∧ b1 ≤ 0xBF
            · rw [Utf8Decoder.run_two _ _ _ _ c2 d1] at h
              obtain ⟨o, ho, hout⟩ := Except.map_eq_ok h
              obtain ⟨hsc, henc⟩ := utf8EncodeScalar_two b0 b1 c2 d1
              simp only [List.length_cons] at hl
              exact utf8_sound_step hsc henc hout (ih r o (by omega) ho)
            · have e : b1 < 0x80 ∨ 0xBF < b1 := by omega
              simp [Utf8Decoder.run, Utf8Decoder.handler, Utf8Decoder.start, c1, c2, e] at h
        · by_cases c3 : 0xE0 ≤ b0 ∧ b0 ≤ 0xEF
          · cases rest with
            | nil =>
              simp [Utf8Decoder.run, Utf8Decoder.handler, Utf8Decoder.start, c1, c2, c3] at h
            | cons b1 r1 =>
              by_cases d1 : (if b0 = 0xE0 then 0xA0 else 0x80) ≤ b1 ∧
                  b1 ≤ (if b0 = 0xED then 0x9F else 0xBF)
              · have e1 : ¬ (b1 < (if b0 = 0xE0 then 0xA0 else 0x80) ∨
                    (if b0 = 0xED then 0x9F else 0xBF) < b1) := by omega
                cases r1 with
                | nil =>
                  simp [Utf8Decoder.run, Utf8Decoder.handler, Utf8Decoder.start, c1, c2, c3,
                    e1] at h
                | cons b2 r =>
                  by_cases d2 : 0x80 ≤ b2 ∧ b2 ≤ 0xBF
                  · rw [Utf8Decoder.run_three _ _ _ _ _ c3 d1 d2] at h
                    obtain ⟨o, ho, hout⟩ := Except.map_eq_ok h
                    obtain ⟨hsc, henc⟩ := utf8EncodeScalar_three b0 b1 b2 c3 d1 d2
                    simp only [List.length_cons] at hl
                    exact utf8_sound_step hsc henc hout (ih r o (by omega) ho)
                  · have e2 : b2 < 0x80 ∨ 0xBF < b2 := by omega
                    simp [Utf8Decoder.run, Utf8Decoder.handler, Utf8Decoder.start, c1, c2, c3,
                      e1, e2] at h
              · have e1 : b1 < (if b0 = 0xE0 then 0xA0 else 0x80) ∨
                    (if b0 = 0xED then 0x9F else 0xBF) < b1 := by omega
                simp [Utf8Decoder.run, Utf8Decoder.handler, Utf8Decoder.start, c1, c2, c3,
                  e1] at h
          · by_cases c4 : 0xF0 ≤ b0 ∧ b0 ≤ 0xF4
            · cases rest with
              | nil =>
                simp [Utf8Decoder.run, Utf8Decoder.handler, Utf8Decoder.start, c1, c2, c3,
                  c4] at h
              | cons b1 r1 =>
                by_cases d1 : (if b0 = 0xF0 then 0x90 else 0x80) ≤ b1 ∧
                    b1 ≤ (if b0 = 0xF4 then 0x8F else 0xBF)
                · have e1 : ¬ (b1 < (if b0 = 0xF0 then 0x90 else 0x80) ∨
                      (if b0 = 0xF4 then 0x8F else 0xBF) < b1) := by omega
                  cases r1 with
                  | nil =>
                    simp [Utf8Decoder.run, Utf8Decoder.handler, Utf8Decoder.start, c1, c2, c3,
                      c4, e1] at h
                  | cons b2 r2 =>
                    by_cases d2 : 0x80 ≤ b2 ∧ b2 ≤ 0xBF
                    · have e2 : ¬ (b2 < 0x80 ∨ 0xBF < b2) := by omega
                      cases r2 with
                      | nil =>
                        simp [Utf8Decoder.run, Utf8Decoder.handler, Utf8Decoder.start, c1, c2,
                          c3, c4, e1, e2] at h
                      | cons b3 r =>
                        by_cases d3 : 0x80 ≤ b3 ∧ b3 ≤ 0xBF
                        · rw [Utf8Decoder.run_four _ _ _ _ _ _ c4 d1 d2 d3] at h
                          obtain ⟨o, ho, hout⟩ := Except.map_eq_ok h
                          obtain ⟨hsc, henc⟩ := utf8EncodeScalar_four b0 b1 b2 b3 c4 d1 d2 d3
                          simp only [List.length_cons] at hl
                          exact utf8_sound_step hsc henc hout (ih r o (by omega) ho)
                        · have e3 : b3 < 0x80 ∨ 0xBF < b3 := by omega
                          simp [Utf8Decoder.run, Utf8Decoder.handler, Utf8Decoder.start, c1,
                            c2, c3, c4, e1, e2, e3] at h
                    · have e2 : b2 < 0x80 ∨ 0xBF < b2 := by omega
                      simp [Utf8Decoder.run, Utf8Decoder.handler, Utf8Decoder.start, c1, c2,
                        c3, c4, e1, e2] at h
                · have e1 : b1 < (if b0 = 0xF0 then 0x90 else 0x80) ∨
                      (if b0 = 0xF4 then 0x8F else 0xBF) < b1 := by omega
                  simp [Utf8Decoder.run, Utf8Decoder.handler, Utf8Decoder.start, c1, c2, c3,
                    c4, e1] at h
            · simp [Utf8Decoder.run, Utf8Decoder.handler, Utf8Decoder.start, c1, c2, c3, c4] at h

/-- In fatal mode the decoder either returns or throws a TypeError. -/
theorem Utf8Decoder.run_fatal_total (d : Utf8Decoder) (bytes : List Nat) :
    (∃ out, Utf8Decoder.run true d bytes = .ok out) ∨
      Utf8Decoder.run true d bytes = .error .TypeError := by
  cases h : Utf8Decoder.run true d bytes with
  | ok out => exact Or.inl ⟨out, rfl⟩
  | error e => cases e with
    | TypeError => exact Or.inr rfl
    | RangeError =>
      exfalso
      induction bytes generalizing d with
      | nil =>
        simp only [Utf8Decoder.run] at h
        split at h <;> simp at h
      | cons b rest ih =>
        simp only [Utf8Decoder.run] at h
        split at h
        · exact ih _ h
        · cases hr : Utf8Decoder.run true _ rest with
          | ok o => rw [hr] at h; cases h
          | error e2 =>
            rw [hr] at h
            simp only [Except.map] at h
            cases e2 with
            | TypeError => cases h
            | RangeError => exact ih _ hr
        · simp at h
        · simp at h


/-! ## Writing to and reading from the memory -/

theorem getElem?_writeAt {mem : Memory} {off : Nat} {bs : List Nat}
    (h : off + bs.length ≤ mem.length) (i : Nat) :
    (writeAt mem off bs)[i]? =
      if i < off then mem[i]? else if i < off + bs.length then bs[i - off]? else mem[i]? := by
  unfold writeAt
  have hl : (List.take off mem).length = off := by
    rw [List.length_take]; omega
  rw [List.append_assoc, List.getElem?_append, hl]
  split
  · next h1 => rw [List.getElem?_take_of_lt h1]
  · next h1 =>
    rw [List.getElem?_append]
    split
    · next h2 => rw [if_pos (by omega)]
    · next h2 =>
      rw [if_neg (by omega), List.getElem?_drop]
      congr 1
      omega

theorem length_writeAt {mem : Memory} {off : Nat} {bs : List Nat}
    (h : off + bs.length ≤ mem.length) : (writeAt mem off bs).length = mem.length := by
  unfold writeAt
  simp only [List.length_append, List.length_take, List.length_drop]
  omega

theorem writeAt_nil (mem : Memory) (off : Nat) : writeAt mem off [] = mem := by
  simp [writeAt]

/-- Reading a window that starts `k` bytes before a write and ends with it. -/
theorem read_writeAt_append {mem : Memory} {p k : Nat} {bs : List Nat}
    (h : p + k + bs.length ≤ mem.length) :
    ((writeAt mem (p + k) bs).drop p).take (k + bs.length) = (mem.drop p).take k ++ bs := by
  apply List.ext_getElem?
  intro i
  have hk : ((mem.drop p).take k).length = k := by
    rw [List.length_take, List.length_drop]; omega
  rw [List.getElem?_take, List.getElem?_drop, getElem?_writeAt h, List.getElem?_append, hk,
    List.getElem?_take, List.getElem?_drop]
  by_cases h1 : i < k
  · rw [if_pos (by omega), if_pos (by omega), if_pos h1, if_pos h1]
  · by_cases h2 : i < k + bs.length
    · rw [if_pos h2, if_neg (by omega), if_pos (by omega), if_neg h1]
      congr 1
      omega
    · rw [if_neg h2, if_neg h1]
      exact (List.getElem?_eq_none (by omega)).symm

theorem read_writeAt {mem : Memory} {p : Nat} {bs : List Nat}
    (h : p + bs.length ≤ mem.length) :
    ((writeAt mem p bs).drop p).take bs.length = bs := by
  have e := @read_writeAt_append mem p 0 bs (by omega)
  simpa using e

theorem storeByte_eq_writeAt {mem : Memory} {i c : Nat} (hi : i < mem.length)
    (hc : c < 256) : storeByte mem i c = writeAt mem i [c] := by
  unfold storeByte writeAt
  rw [if_pos hi, Nat.mod_eq_of_lt hc, List.set_eq_take_append_cons_drop, if_pos hi]
  simp

theorem writeAt_writeAt {mem : Memory} {off : Nat} {a b : List Nat}
    (h : off + a.length + b.length ≤ mem.length) :
    writeAt (writeAt mem off a) (off + a.length) b = writeAt mem off (a ++ b) := by
  apply List.ext_getElem?
  intro i
  have h1 : off + a.length ≤ mem.length := by omega
  have h2 : off + a.length + b.length ≤ (writeAt mem off a).length := by
    rw [length_writeAt h1]; exact h
  have h3 : off + (a ++ b).length ≤ mem.length := by
    rw [List.length_append]; omega
  rw [getElem?_writeAt h2, getElem?_writeAt h1, getElem?_writeAt h3, List.getElem?_append,
    List.length_append]
  by_cases c1 : i < off
  · rw [if_pos (by omega), if_pos c1, if_pos c1]
  · by_cases c2 : i < off + a.length
    · rw [if_pos c2, if_neg c1, if_pos c2, if_neg c1, if_pos (by omega), if_pos (by omega)]
    · by_cases c3 : i < off + a.length + b.length
      · rw [if_neg c2, if_pos c3, if_neg c1, if_pos (by omega), if_neg (by omega)]
        congr 1
        omega
      · rw [if_neg c2, if_neg c3, if_neg c1, if_neg c2, if_neg c1, if_neg (by omega)]

/-- The bytes of `subarray(ptr, ptr + len)` are the `len` bytes from `ptr` on, as
far as the memory goes. -/
theorem bytes_subarray (mem : Memory) (ptr len : Nat) :
    (subarray mem ptr (ptr + len)).bytes mem = (mem.drop ptr).take len := by
  unfold View.bytes subarray
  simp only
  by_cases h : ptr ≤ mem.length
  · rw [Nat.min_eq_left h]
    by_cases h2 : ptr + len ≤ mem.length
    · rw [Nat.min_eq_left h2]
      congr 1
      omega
    · rw [Nat.min_eq_right (by omega)]
      rw [List.take_of_length_le (by rw [List.length_drop]),
        List.take_of_length_le (by rw [List.length_drop]; omega)]
  · rw [Nat.min_eq_right (by omega), Nat.min_eq_right (by omega)]
    have e1 : mem.drop ptr = [] := List.drop_of_length_le (by omega)
    have e2 : mem.drop mem.length = [] := List.drop_of_length_le (Nat.le_refl _)
    rw [e1, e2]
    simp

theorem subarray_inBounds {mem : Memory} {b e : Nat} (h1 : b ≤ e) (h2 : e ≤ mem.length) :
    subarray mem b e = { byteOffset := b, length := e - b } := by
  unfold subarray
  rw [Nat.min_eq_left (by omega), Nat.min_eq_left h2]


/-! ## Code units and scalar values -/

theorem toScalarValues_cons_plain (u : Nat) (s : JsString)
    (h1 : isHighSurrogate u = false) (h2 : isLowSurrogate u = false) :
    toScalarValues (u :: s) = u :: toScalarValues s := by
  cases s with
  | nil => simp [toScalarValues, h1, h2]
  | cons l rest => simp [toScalarValues, h1, h2]

theorem toScalarValues_cons_pair (u l : Nat) (s : JsString)
    (h1 : isHighSurrogate u = true) (h2 : isLowSurrogate l = true) :
    toScalarValues (u :: l :: s) =
      (0x10000 + (u - 0xD800) * 0x400 + (l - 0xDC00)) :: toScalarValues s := by
  simp [toScalarValues, h1, h2]

theorem isHighSurrogate_iff (u : Nat) : isHighSurrogate u = true ↔ 0xD800 ≤ u ∧ u < 0xDC00 := by
  simp [isHighSurrogate]

theorem isLowSurrogate_iff (u : Nat) : isLowSurrogate u = true ↔ 0xDC00 ≤ u ∧ u < 0xE000 := by
  simp [isLowSurrogate]

theorem isHighSurrogate_false_iff (u : Nat) :
    isHighSurrogate u = false ↔ u < 0xD800 ∨ 0xDC00 ≤ u := by
  rw [← Bool.not_eq_true, isHighSurrogate_iff]; omega

theorem isLowSurrogate_false_iff (u : Nat) :
    isLowSurrogate u = false ↔ u < 0xDC00 ∨ 0xE000 ≤ u := by
  rw [← Bool.not_eq_true, isLowSurrogate_iff]; omega

theorem wellFormedText_cons_plain (u : Nat) (s : JsString)
    (h1 : isHighSurrogate u = false) (h2 : isLowSurrogate u = false) :
    wellFormedText (u :: s) = (decide (u < 0x10000) && wellFormedText s) := by
  cases s with
  | nil => simp [wellFormedText, h1, h2]
  | cons l rest => simp [wellFormedText, h1, h2]

theorem wellFormedText_cons_low (u : Nat) (s : JsString)
    (h1 : isHighSurrogate u = false) (h2 : isLowSurrogate u = true) :
    wellFormedText (u :: s) = false := by
  cases s with
  | nil => simp [wellFormedText, h1, h2]
  | cons l rest => simp [wellFormedText, h1, h2]

/-- A well-formed text is the code units of its scalar values, and all of them
are scalar values. -/
theorem wellFormedText_scalars (n : Nat) :
    ∀ s : JsString, s.length ≤ n → wellFormedText s = true →
      fromCodePoints (toScalarValues s) = s ∧
        ∀ cp ∈ toScalarValues s, isScalarValue cp = true := by
  induction n with
  | zero =>
    intro s hl _
    have hs : s = [] := List.length_eq_zero.mp (by omega)
    subst hs
    simp [toScalarValues, fromCodePoints]
  | succ n ih =>
    intro s hl hw
    cases s with
    | nil => simp [toScalarValues, fromCodePoints]
    | cons u rest =>
      simp only [List.length_cons] at hl
      by_cases hh : isHighSurrogate u = true
      · cases rest with
        | nil => simp [wellFormedText, hh] at hw
        | cons l rest1 =>
          simp only [wellFormedText, hh, if_true, Bool.and_eq_true] at hw
          simp only [List.length_cons] at hl
          obtain ⟨e1, e2⟩ := ih rest1 (by omega) hw.2
          rw [toScalarValues_cons_pair u l rest1 hh hw.1]
          have hu := (isHighSurrogate_iff u).mp hh
          have hlo := (isLowSurrogate_iff l).mp hw.1
          refine ⟨?_, ?_⟩
          · rw [fromCodePoints, if_neg (by omega), e1]
            have a1 : 0xD800 + (0x10000 + (u - 0xD800) * 0x400 + (l - 0xDC00) - 0x10000) / 0x400
                = u := by omega
            have a2 : 0xDC00 + (0x10000 + (u - 0xD800) * 0x400 + (l - 0xDC00) - 0x10000) % 0x400
                = l := by omega
            rw [a1, a2]
          · intro cp hcp
            rcases List.mem_cons.mp hcp with hc | hm
            · rw [hc]
              exact (isScalarValue_iff _).mpr (by omega)
            · exact e2 cp hm
      · have hh' : isHighSurrogate u = false := by simpa using hh
        by_cases hlo : isLowSurrogate u = true
        · rw [wellFormedText_cons_low u rest hh' hlo] at hw
          cases hw
        · have hlo' : isLowSurrogate u = false := by simpa using hlo
          rw [wellFormedText_cons_plain u rest hh' hlo'] at hw
          simp only [Bool.and_eq_true, decide_eq_true_eq] at hw
          obtain ⟨e1, e2⟩ := ih rest (by omega) hw.2
          rw [toScalarValues_cons_plain u rest hh' hlo']
          have a1 := (isHighSurrogate_false_iff u).mp hh'
          have a2 := (isLowSurrogate_false_iff u).mp hlo'
          refine ⟨?_, ?_⟩
          · rw [fromCodePoints, if_pos hw.1, e1]
          · intro cp hcp
            rcases List.mem_cons.mp hcp with rfl | hm
            · exact (isScalarValue_iff _).mpr (by omega)
            · exact e2 cp hm

/-- The code units of scalar values form a well-formed text whose scalar values
are the given ones. -/
theorem fromCodePoints_scalars (cps : List Nat) (h : ∀ cp ∈ cps, isScalarValue cp = true) :
    toScalarValues (fromCodePoints cps) = cps ∧ wellFormedText (fromCodePoints cps) = true := by
  induction cps with
  | nil => simp [toScalarValues, fromCodePoints, wellFormedText]
  | cons cp rest ih =>
    obtain ⟨e1, e2⟩ := ih (fun c hc => h c (List.mem_cons_of_mem _ hc))
    have hsc := (isScalarValue_iff cp).mp (h cp (List.mem_cons_self _ _))
    by_cases c1 : cp < 0x10000
    · have hh : isHighSurrogate cp = false := (isHighSurrogate_false_iff cp).mpr (by omega)
      have hlo : isLowSurrogate cp = false := (isLowSurrogate_false_iff cp).mpr (by omega)
      rw [fromCodePoints, if_pos c1, toScalarValues_cons_plain _ _ hh hlo, e1]
      refine ⟨rfl, ?_⟩
      rw [wellFormedText_cons_plain _ _ hh hlo]
      simp [c1, e2]
    · have hh : isHighSurrogate (0xD800 + (cp - 0x10000) / 0x400) = true :=
        (isHighSurrogate_iff _).mpr (by omega)
      have hlo : isLowSurrogate (0xDC00 + (cp - 0x10000) % 0x400) = true :=
        (isLowSurrogate_iff _).mpr (by omega)
      rw [fromCodePoints, if_neg c1, toScalarValues_cons_pair _ _ _ hh hlo, e1]
      have a1 : 0x10000 + (0xD800 + (cp - 0x10000) / 0x400 - 0xD800) * 0x400 +
          (0xDC00 + (cp - 0x10000) % 0x400 - 0xDC00) = cp := by omega
      rw [a1]
      refine ⟨rfl, ?_⟩
      simp [wellFormedText, hh, hlo, e2]

theorem wellFormedText_validUnits (n : Nat) :
    ∀ s : JsString, s.length ≤ n → wellFormedText s = true → validUnits s = true := by
  induction n with
  | zero =>
    intro s hl _
    have hs : s = [] := List.length_eq_zero.mp (by omega)
    subst hs
    rfl
  | succ n ih =>
    intro s hl hw
    cases s with
    | nil => rfl
    | cons u rest =>
      simp only [List.length_cons] at hl
      by_cases hh : isHighSurrogate u = true
      · cases rest with
        | nil => simp [wellFormedText, hh] at hw
        | cons l rest1 =>
          simp only [wellFormedText, hh, if_true, Bool.and_eq_true] at hw
          simp only [List.length_cons] at hl
          have e := ih rest1 (by omega) hw.2
          have hu := (isHighSurrogate_iff u).mp hh
          have hlo := (isLowSurrogate_iff l).mp hw.1
          simp only [validUnits, List.all_cons, Bool.and_eq_true, decide_eq_true_eq] at e ⊢
          exact ⟨by omega, by omega, e⟩
      · have hh' : isHighSurrogate u = false := by simpa using hh
        by_cases hlo : isLowSurrogate u = true
        · rw [wellFormedText_cons_low u rest hh' hlo] at hw
          cases hw
        · have hlo' : isLowSurrogate u = false := by simpa using hlo
          rw [wellFormedText_cons_plain u rest hh' hlo'] at hw
          simp only [Bool.and_eq_true, decide_eq_true_eq] at hw
          have e := ih rest (by omega) hw.2
          simp only [validUnits, List.all_cons, Bool.and_eq_true, decide_eq_true_eq] at e ⊢
          exact ⟨hw.1, e⟩

/-! ## The size of the encoding -/

theorem length_utf8EncodeScalar_le (cp : Nat) :
    (utf8EncodeScalar cp).length ≤ 4 ∧ (cp < 0x10000 → (utf8EncodeScalar cp).length ≤ 3) := by
  unfold utf8EncodeScalar
  split
  · simp
  · split
    · simp
    · split
      · simp
      · simp; omega

/-- The encoding takes at most three bytes for each code unit. -/
theorem length_encode_le (n : Nat) :
    ∀ s : JsString, s.length ≤ n → validUnits s = true →
      (TextEncoder.encode s).length ≤ 3 * s.length := by
  unfold TextEncoder.encode
  induction n with
  | zero =>
    intro s hl _
    have hs : s = [] := List.length_eq_zero.mp (by omega)
    subst hs
    simp [toScalarValues, utf8EncodeScalars]
  | succ n ih =>
    intro s hl hv
    cases s with
    | nil => simp [toScalarValues, utf8EncodeScalars]
    | cons u rest =>
      simp only [List.length_cons] at hl
      simp only [validUnits, List.all_cons, Bool.and_eq_true, decide_eq_true_eq] at hv
      have hrest : validUnits rest = true := hv.2
      have ihr := ih rest (by omega) hrest
      have hfffd : (utf8EncodeScalar 0xFFFD).length = 3 := by decide
      cases rest with
      | nil =>
        simp only [toScalarValues]
        split
        · simp [utf8EncodeScalars, hfffd]
        · have := (length_utf8EncodeScalar_le u).2 hv.1
          simp [utf8EncodeScalars]
          omega
      | cons l rest1 =>
        simp only [toScalarValues]
        simp only [List.length_cons] at hl ihr ⊢
        split
        · have hv1 : validUnits rest1 = true := by
            simp only [validUnits, List.all_cons, Bool.and_eq_true] at hrest
            exact hrest.2
          have ih1 := ih rest1 (by omega) hv1
          have := (length_utf8EncodeScalar_le
            (0x10000 + (u - 0xD800) * 0x400 + (l - 0xDC00))).1
          simp only [utf8EncodeScalars, List.length_append]
          omega
        · split
          · simp only [utf8EncodeScalars, List.length_append, hfffd]
            omega
          · have := (length_utf8EncodeScalar_le u).2 hv.1
            simp only [utf8EncodeScalars, List.length_append]
            omega

/-- With room for the whole encoding, `encodeInto` writes the whole encoding. -/
theorem encodeIntoLoop_written (cps : List Nat) :
    ∀ cap, (utf8EncodeScalars cps).length ≤ cap →
      (encodeIntoLoop cps cap).2 = utf8EncodeScalars cps := by
  induction cps with
  | nil => intro cap _; rfl
  | cons cp rest ih =>
    intro cap h
    simp only [utf8EncodeScalars, List.length_append] at h
    simp only [encodeIntoLoop, utf8EncodeScalars]
    rw [if_pos (by omega)]
    simp only
    rw [ih _ (by omega)]

/-! ## The leading ASCII code units -/

theorem asciiPrefixLen_le (s : JsString) : asciiPrefixLen s ≤ s.length := by
  induction s with
  | nil => simp [asciiPrefixLen]
  | cons code rest ih =>
    simp only [asciiPrefixLen, List.length_cons]
    split <;> omega

theorem take_asciiPrefixLen_ascii (s : JsString) :
    ∀ c ∈ s.take (asciiPrefixLen s), c ≤ 0x7F := by
  induction s with
  | nil => simp [asciiPrefixLen]
  | cons code rest ih =>
    simp only [asciiPrefixLen]
    split
    · simp
    · next h =>
      intro c hc
      rw [List.take_succ_cons] at hc
      rcases List.mem_cons.mp hc with rfl | hm
      · omega
      · exact ih c hm

/-- The code unit at the index `asciiPrefixLen s`, when there is one, is above
0x7F: that index is the first code unit above 0x7F. -/
theorem getElem?_asciiPrefixLen (s : JsString) (c : Nat)
    (h : s[asciiPrefixLen s]? = some c) : 0x7F < c := by
  induction s with
  | nil => simp at h
  | cons code rest ih =>
    simp only [asciiPrefixLen] at h
    split at h
    · next hc =>
      simp at h
      omega
    · simp only [List.getElem?_cons_succ] at h
      exact ih h

/-- Leading ASCII code units encode to themselves. -/
theorem encode_asciiPrefix (s : JsString) :
    TextEncoder.encode s =
      s.take (asciiPrefixLen s) ++ TextEncoder.encode (s.drop (asciiPrefixLen s)) := by
  unfold TextEncoder.encode
  induction s with
  | nil => simp [asciiPrefixLen]
  | cons code rest ih =>
    simp only [asciiPrefixLen]
    split
    · simp
    · next h =>
      have hh : isHighSurrogate code = false := (isHighSurrogate_false_iff code).mpr (by omega)
      have hlo : isLowSurrogate code = false := (isLowSurrogate_false_iff code).mpr (by omega)
      rw [toScalarValues_cons_plain code rest hh hlo, utf8EncodeScalars, List.take_succ_cons,
        List.drop_succ_cons, ih]
      have : utf8EncodeScalar code = [code] := by
        rw [utf8EncodeScalar, if_pos (by omega)]
      rw [this]
      rfl

/-- The loop of lines 171-175 stops at the first code unit above 0x7F, having
stored the code units before it. -/
theorem asciiLoop_spec (ptr : Nat) (s : JsString) :
    ∀ (offset : Nat) (mem : Memory), ptr + offset + s.length ≤ mem.length →
      asciiLoop ptr s offset mem =
        (offset + asciiPrefixLen s,
          writeAt mem (ptr + offset) (s.take (asciiPrefixLen s))) := by
  induction s with
  | nil =>
    intro offset mem _
    simp [asciiLoop, asciiPrefixLen, writeAt_nil]
  | cons code rest ih =>
    intro offset mem h
    simp only [List.length_cons] at h
    simp only [asciiLoop, asciiPrefixLen]
    split
    · simp [writeAt_nil]
    · next hc =>
      have hst : storeByte mem (ptr + offset) code = writeAt mem (ptr + offset) [code] :=
        storeByte_eq_writeAt (by omega) (by omega)
      have hlen : (writeAt mem (ptr + offset) [code]).length = mem.length :=
        length_writeAt (by simp; omega)
      rw [hst, ih (offset + 1) _ (by rw [hlen]; omega)]
      have hk := asciiPrefixLen_le rest
      have hw := @writeAt_writeAt mem (ptr + offset) [code]
        (rest.take (asciiPrefixLen rest))
        (by simp only [List.length_cons, List.length_nil, List.length_take]; omega)
      simp only [List.length_cons, List.length_nil, Nat.zero_add, List.singleton_append] at hw
      rw [List.take_succ_cons, ← hw]
      congr 1
      omega


/-! ## What `passStringToWasm0` leaves in memory -/

theorem validUnits_drop (s : JsString) (k : Nat) (h : validUnits s = true) :
    validUnits (s.drop k) = true := by
  simp only [validUnits, List.all_eq_true, decide_eq_true_eq] at h ⊢
  intro u hu
  exact h u (List.mem_of_mem_drop hu)

theorem encodeString_spec (hasEncodeInto : Bool) (arg : JsString) (view : View) (mem : Memory)
    (hv : validUnits arg = true) (hcap : 3 * arg.length ≤ view.length) :
    ∃ rd, encodeString hasEncodeInto arg view mem =
      .ok ({ read := rd, written := (TextEncoder.encode arg).length },
        writeAt mem view.byteOffset (TextEncoder.encode arg)) := by
  have hlen := length_encode_le arg.length arg (Nat.le_refl _) hv
  cases hasEncodeInto with
  | true =>
    have hw := encodeIntoLoop_written (toScalarValues arg) view.length
      (by unfold TextEncoder.encode at hlen; omega)
    refine ⟨(encodeIntoLoop (toScalarValues arg) view.length).1, ?_⟩
    simp only [encodeString, if_true, hw]
    rfl
  | false =>
    refine ⟨arg.length, ?_⟩
    have hnot : ¬ view.length < (TextEncoder.encode arg).length := by omega
    simp [encodeString, View.set, hnot]

/-- Without a reallocator `passStringToWasm0` succeeds and leaves the encoding of
the string at the pointer it returns, with `WASM_VECTOR_LEN` its length. -/
theorem passStringToWasm0_malloc_spec (hasEncodeInto : Bool) (s : JsString) (malloc : Malloc)
    (mem : Memory) (hm : MallocOk malloc) :
    ∃ r, passStringToWasm0 hasEncodeInto s malloc none mem = .ok r ∧
      r.WASM_VECTOR_LEN = (TextEncoder.encode s).length ∧
      (r.memory.drop r.ptr).take r.WASM_VECTOR_LEN = TextEncoder.encode s ∧
      r.calls = [.malloc (TextEncoder.encode s).length] := by
  have hb := hm (TextEncoder.encode s).length mem
  cases hmal : malloc (TextEncoder.encode s).length mem with
  | mk ptr mem1 =>
    rw [hmal] at hb
    simp only at hb
    have hnot : ¬ (ptr + (TextEncoder.encode s).length - ptr) < (TextEncoder.encode s).length := by
      omega
    refine ⟨{ ptr := ptr, WASM_VECTOR_LEN := (TextEncoder.encode s).length,
              memory := writeAt mem1 ptr (TextEncoder.encode s),
              calls := [.malloc (TextEncoder.encode s).length] }, ?_, rfl, ?_, rfl⟩
    · simp only [passStringToWasm0, hmal]
      rw [subarray_inBounds (by omega) hb]
      simp [View.set, hnot]
    · exact read_writeAt hb

/-- With a reallocator `passStringToWasm0` succeeds and leaves the encoding of the
string at the pointer it returns, with `WASM_VECTOR_LEN` its length; the
reallocator is called only when some code unit is above 0x7F, once, with the
length of the string as old size and `k + 3 * (length - k)` as new size, `k`
being the index of that code unit. -/
theorem passStringToWasm0_realloc_spec (hasEncodeInto : Bool) (s : JsString) (malloc : Malloc)
    (realloc : Realloc) (mem : Memory) (hv : validUnits s = true) (hm : MallocOk malloc)
    (hr : ReallocOk realloc) :
    ∃ r, passStringToWasm0 hasEncodeInto s malloc (some realloc) mem = .ok r ∧
      r.WASM_VECTOR_LEN = (TextEncoder.encode s).length ∧
      (r.memory.drop r.ptr).take r.WASM_VECTOR_LEN = TextEncoder.encode s ∧
      r.calls =
        (if asciiPrefixLen s = s.length then [.malloc s.length]
         else [.malloc s.length,
           .realloc (malloc s.length mem).1 s.length
             (asciiPrefixLen s + 3 * (s.length - asciiPrefixLen s))]) ∧
      (asciiPrefixLen s = s.length → r.ptr = (malloc s.length mem).1) := by
  have hb := hm s.length mem
  have hk := asciiPrefixLen_le s
  have henc := encode_asciiPrefix s
  cases hmal : malloc s.length mem with
  | mk ptr mem1 =>
    rw [hmal] at hb
    simp only at hb
    have hloop := asciiLoop_spec ptr s 0 mem1 (by omega)
    simp only [Nat.zero_add, Nat.add_zero] at hloop
    have hlt : ptr + (s.take (asciiPrefixLen s)).length ≤ mem1.length := by
      rw [List.length_take]; omega
    have hlen2 : (writeAt mem1 ptr (s.take (asciiPrefixLen s))).length = mem1.length :=
      length_writeAt hlt
    by_cases hall : asciiPrefixLen s = s.length
    · have htake : s.take (asciiPrefixLen s) = s := by
        rw [hall]; exact List.take_length s
      have hdrop : s.drop (asciiPrefixLen s) = [] := by
        rw [hall]; exact List.drop_length s
      have hes : TextEncoder.encode s = s := by
        rw [henc, htake, hdrop]
        simp [TextEncoder.encode, toScalarValues, utf8EncodeScalars]
      refine ⟨{ ptr := ptr, WASM_VECTOR_LEN := asciiPrefixLen s,
                memory := writeAt mem1 ptr (s.take (asciiPrefixLen s)),
                calls := [.malloc s.length] }, ?_, ?_, ?_, ?_, ?_⟩
      · simp only [passStringToWasm0, hmal, hloop]
        simp [hall]
      · simp only [hes, hall]
      · simp only [hes]
        rw [htake, hall]
        exact read_writeAt (by omega)
      · simp [hall]
      · intro _
        rfl
    · have harg : (if asciiPrefixLen s ≠ 0 then s.drop (asciiPrefixLen s) else s) =
          s.drop (asciiPrefixLen s) := by
        split
        · rfl
        · next h0 =>
          have : asciiPrefixLen s = 0 := by omega
          rw [this]; rfl
      have hdl : (s.drop (asciiPrefixLen s)).length = s.length - asciiPrefixLen s :=
        List.length_drop _ _
      have hro := hr ptr s.length (asciiPrefixLen s + (s.length - asciiPrefixLen s) * 3)
        (writeAt mem1 ptr (s.take (asciiPrefixLen s))) (by rw [hlen2]; exact hb)
      cases hre : realloc ptr s.length (asciiPrefixLen s + (s.length - asciiPrefixLen s) * 3)
          (writeAt mem1 ptr (s.take (asciiPrefixLen s))) with
      | mk ptr1 mem3 =>
        rw [hre] at hro
        simp only at hro
        obtain ⟨hin, hpre⟩ := hro
        have hmin : asciiPrefixLen s ≤
            min s.length (asciiPrefixLen s + (s.length - asciiPrefixLen s) * 3) := by
          rw [Nat.le_min]; omega
        have hpre2 : (mem3.drop ptr1).take (asciiPrefixLen s) = s.take (asciiPrefixLen s) := by
          have e := congrArg (List.take (asciiPrefixLen s)) hpre
          rw [List.take_take, List.take_take, Nat.min_eq_left hmin] at e
          rw [e]
          have e2 := @read_writeAt mem1 ptr (s.take (asciiPrefixLen s)) hlt
          rw [List.length_take, Nat.min_eq_left hk] at e2
          exact e2
        have hview : subarray mem3 (ptr1 + asciiPrefixLen s)
            (ptr1 + (asciiPrefixLen s + (s.length - asciiPrefixLen s) * 3)) =
            { byteOffset := ptr1 + asciiPrefixLen s,
              length := (s.length - asciiPrefixLen s) * 3 } := by
          rw [subarray_inBounds (by omega) hin]
          congr 1
          omega
        obtain ⟨rd, hes⟩ := encodeString_spec hasEncodeInto (s.drop (asciiPrefixLen s))
          { byteOffset := ptr1 + asciiPrefixLen s, length := (s.length - asciiPrefixLen s) * 3 }
          mem3 (validUnits_drop s _ hv) (by rw [hdl]; simp only; omega)
        have hbound := length_encode_le _ (s.drop (asciiPrefixLen s)) (Nat.le_refl _)
          (validUnits_drop s _ hv)
        rw [hdl] at hbound
        refine ⟨{ ptr := ptr1,
                  WASM_VECTOR_LEN := asciiPrefixLen s +
                    (TextEncoder.encode (s.drop (asciiPrefixLen s))).length,
                  memory := writeAt mem3 (ptr1 + asciiPrefixLen s)
                    (TextEncoder.encode (s.drop (asciiPrefixLen s))),
                  calls := [.malloc s.length,
                    .realloc ptr s.length
                      (asciiPrefixLen s + (s.length - asciiPrefixLen s) * 3)] },
          ?_, ?_, ?_, ?_, fun h => absurd h hall⟩
        · simp only [passStringToWasm0, hmal, hloop, harg, hdl, hre, hview, hes]
          simp [hall]
        · simp only
          rw [henc, List.length_append, List.length_take, Nat.min_eq_left hk]
        · simp only
          rw [read_writeAt_append (by omega), hpre2, ← henc]
        · rw [if_neg hall]
          simp only [List.cons.injEq, AllocCall.realloc.injEq, true_and, and_true]
          omega


/-! ## Decoding what was encoded -/

theorem decode_eq_run (bytes : List Nat) :
    cachedTextDecoder.decode bytes =
      (Utf8Decoder.run true Utf8Decoder.start bytes).map fromCodePoints := by
  simp [TextDecoder.decode, cachedTextDecoder]

theorem getStringFromWasm0_eq (ptr len : Nat) (mem : Memory) :
    getStringFromWasm0 ptr len mem =
      (Utf8Decoder.run true Utf8Decoder.start ((mem.drop ptr).take len)).map fromCodePoints := by
  rw [getStringFromWasm0, bytes_subarray, decode_eq_run]

theorem decode_encode (T : JsString) (hT : wellFormedText T = true) :
    cachedTextDecoder.decode (TextEncoder.encode T) = .ok T := by
  obtain ⟨e1, e2⟩ := wellFormedText_scalars T.length T (Nat.le_refl _) hT
  rw [decode_eq_run, TextEncoder.encode, Utf8Decoder.run_encodeScalars true _ e2]
  simp only [Except.map, e1]

theorem asciiPrefixLen_eq_of_first (s : JsString) :
    ∀ k, (∀ c ∈ s.take k, c ≤ 0x7F) → (∃ c, s[k]? = some c ∧ 0x7F < c) →
      asciiPrefixLen s = k := by
  induction s with
  | nil =>
    intro k _ h
    obtain ⟨c, hc, _⟩ := h
    simp at hc
  | cons code rest ih =>
    intro k hb ha
    cases k with
    | zero =>
      obtain ⟨c, hc, hgt⟩ := ha
      simp only [List.getElem?_cons_zero, Option.some.injEq] at hc
      subst hc
      simp only [asciiPrefixLen]
      rw [if_pos hgt]
    | succ k =>
      have h0 : code ≤ 0x7F := hb code (by rw [List.take_succ_cons]; exact List.mem_cons_self _ _)
      simp only [asciiPrefixLen]
      rw [if_neg (by omega)]
      have := ih k (fun c hc => hb c (by rw [List.take_succ_cons]; exact List.mem_cons_of_mem _ hc))
        (by simpa using ha)
      omega

theorem asciiPrefixLen_eq_length (s : JsString) (h : ∀ c ∈ s, c ≤ 0x7F) :
    asciiPrefixLen s = s.length := by
  induction s with
  | nil => rfl
  | cons code rest ih =>
    have h0 : code ≤ 0x7F := h code (List.mem_cons_self _ _)
    simp only [asciiPrefixLen, List.length_cons]
    rw [if_neg (by omega), ih (fun c hc => h c (List.mem_cons_of_mem _ hc))]

theorem mallocOk_bumpMalloc : MallocOk bumpMalloc := by
  intro n mem
  simp [bumpMalloc]

theorem reallocOk_bumpRealloc : ReallocOk bumpRealloc := by
  intro p old new mem h
  simp only [bumpRealloc]
  have hl : ((mem.drop p).take (min old new)).length = min old new := by
    rw [List.length_take, List.length_drop]
    omega
  refine ⟨?_, ?_⟩
  · simp only [List.length_append, List.length_replicate, hl]
    omega
  · rw [List.drop_left, List.take_append_eq_append_take, hl, Nat.sub_self, List.take_zero,
      List.append_nil, List.take_take, Nat.min_self]

/-! ## Properties of the string codec -/

/-- C8: for every well-formed text (no unpaired surrogate), with an allocator and
a reallocator that return regions inside the memory (the reallocator keeping the
old bytes), `passStringToWasm0` succeeds both without and with the reallocator,
whichever variant of `encodeString` the host selects, and `getStringFromWasm0`
at the returned pointer with `WASM_VECTOR_LEN` gives the text back. -/
theorem passString_getString_roundtrip (hasEncodeInto : Bool) (T : JsString)
    (malloc : Malloc) (realloc : Realloc) (mem : Memory)
    (hT : wellFormedText T = true) (hm : MallocOk malloc) (hr : ReallocOk realloc) :
    (∃ r, passStringToWasm0 hasEncodeInto T malloc none mem = .ok r ∧
        getStringFromWasm0 r.ptr r.WASM_VECTOR_LEN r.memory = .ok T) ∧
    (∃ r, passStringToWasm0 hasEncodeInto T malloc (some realloc) mem = .ok r ∧
        getStringFromWasm0 r.ptr r.WASM_VECTOR_LEN r.memory = .ok T) := by
  have hv := wellFormedText_validUnits T.length T (Nat.le_refl _) hT
  constructor
  · obtain ⟨r, hp, _, hbytes, _⟩ := passStringToWasm0_malloc_spec hasEncodeInto T malloc mem hm
    refine ⟨r, hp, ?_⟩
    rw [getStringFromWasm0, bytes_subarray, hbytes]
    exact decode_encode T hT
  · obtain ⟨r, hp, _, hbytes, _⟩ :=
      passStringToWasm0_realloc_spec hasEncodeInto T malloc realloc mem hv hm hr
    refine ⟨r, hp, ?_⟩
    rw [getStringFromWasm0, bytes_subarray, hbytes]
    exact decode_encode T hT

theorem passString_getString_roundtrip_witness :
    (wellFormedText [0x68, 0xE9, 0x20AC, 0xD83D, 0xDE00, 0x41] = true ∧
      MallocOk bumpMalloc ∧ ReallocOk bumpRealloc) ∧
    ((∃ r, passStringToWasm0 true [0x68, 0xE9, 0x20AC, 0xD83D, 0xDE00, 0x41] bumpMalloc none
          [1, 2, 3] = .ok r ∧
        getStringFromWasm0 r.ptr r.WASM_VECTOR_LEN r.memory =
          .ok [0x68, 0xE9, 0x20AC, 0xD83D, 0xDE00, 0x41]) ∧
      (∃ r, passStringToWasm0 true [0x68, 0xE9, 0x20AC, 0xD83D, 0xDE00, 0x41] bumpMalloc
          (some bumpRealloc) [1, 2, 3] = .ok r ∧
        getStringFromWasm0 r.ptr r.WASM_VECTOR_LEN r.memory =
          .ok [0x68, 0xE9, 0x20AC, 0xD83D, 0xDE00, 0x41])) :=
  ⟨⟨by decide, mallocOk_bumpMalloc, reallocOk_bumpRealloc⟩,
    passString_getString_roundtrip true [0x68, 0xE9, 0x20AC, 0xD83D, 0xDE00, 0x41] bumpMalloc
      bumpRealloc [1, 2, 3] (by decide) mallocOk_bumpMalloc reallocOk_bumpRealloc⟩

/-- C9: `getStringFromWasm0(ptr, len)` returns a text exactly when the bytes of
the memory from `ptr`, `len` of them (as far as the memory goes), are valid
UTF-8; on any other bytes it throws a TypeError; and a text it returns is well
formed and encodes to exactly those bytes, so nothing in it was substituted. -/
theorem getStringFromWasm0_strict (ptr len : Nat) (mem : Memory) :
    ((∃ T, getStringFromWasm0 ptr len mem = .ok T) ↔ ValidUtf8 ((mem.drop ptr).take len)) ∧
    (¬ ValidUtf8 ((mem.drop ptr).take len) →
      getStringFromWasm0 ptr len mem = .error .TypeError) ∧
    (∀ T, getStringFromWasm0 ptr len mem = .ok T →
      wellFormedText T = true ∧ TextEncoder.encode T = (mem.drop ptr).take len) := by
  have hsound : ∀ T, getStringFromWasm0 ptr len mem = .ok T →
      ValidUtf8 ((mem.drop ptr).take len) ∧ wellFormedText T = true ∧
        TextEncoder.encode T = (mem.drop ptr).take len := by
    intro T h
    rw [getStringFromWasm0_eq] at h
    obtain ⟨o, ho, hT⟩ := Except.map_eq_ok h
    obtain ⟨hs, he⟩ := Utf8Decoder.run_fatal_sound _ _ o (Nat.le_refl _) ho
    obtain ⟨e1, e2⟩ := fromCodePoints_scalars o hs
    refine ⟨⟨o, hs, he⟩, hT ▸ e2, ?_⟩
    rw [hT, TextEncoder.encode, e1, he]
  have hcomplete : ValidUtf8 ((mem.drop ptr).take len) →
      ∃ T, getStringFromWasm0 ptr len mem = .ok T := by
    rintro ⟨cps, hs, he⟩
    refine ⟨fromCodePoints cps, ?_⟩
    rw [getStringFromWasm0_eq, ← he, Utf8Decoder.run_encodeScalars true cps hs]
    rfl
  refine ⟨⟨fun ⟨T, h⟩ => (hsound T h).1, hcomplete⟩, ?_, fun T h => (hsound T h).2⟩
  intro hnot
  rw [getStringFromWasm0_eq]
  rcases Utf8Decoder.run_fatal_total Utf8Decoder.start ((mem.drop ptr).take len) with
    ⟨o, ho⟩ | herr
  · exfalso
    apply hnot
    obtain ⟨hs, he⟩ := Utf8Decoder.run_fatal_sound _ _ o (Nat.le_refl _) ho
    exact ⟨o, hs, he⟩
  · rw [herr]
    rfl

theorem getStringFromWasm0_strict_witness :
    getStringFromWasm0 1 2 [0x41, 0xC0, 0x80] = .error .TypeError ∧
      ¬ ValidUtf8 (([0x41, 0xC0, 0x80].drop 1).take 2) ∧
      getStringFromWasm0 0 3 [0xE2, 0x82, 0xAC] = .ok [0x20AC] ∧
      ValidUtf8 (([0xE2, 0x82, 0xAC].drop 0).take 3) :=
  have hbad : ¬ ValidUtf8 (([0x41, 0xC0, 0x80].drop 1).take 2) := fun hv =>
    match (getStringFromWasm0_strict 1 2 [0x41, 0xC0, 0x80]).1.mpr hv with
    | ⟨_, hT⟩ => by cases hT
  ⟨(getStringFromWasm0_strict 1 2 [0x41, 0xC0, 0x80]).2.1 hbad, hbad, rfl,
    (getStringFromWasm0_strict 0 3 [0xE2, 0x82, 0xAC]).1.mp ⟨[0x20AC], rfl⟩⟩

/-- C10: in `passStringToWasm0` with a reallocator (regions inside the memory,
old bytes kept), for a string whose first code unit above 0x7F is at index `k`:
the allocator calls are `malloc(length)` and then exactly one
`realloc(ptr, length, k + 3 * (length - k))`; the `k` leading code units stand as
single bytes at the returned pointer; the bytes written, `WASM_VECTOR_LEN`, are
`k` plus the encoding of the rest, at most `k + 3 * (length - k)`. For a string
with no code unit above 0x7F the only call is `malloc(length)`, the pointer is
the one it returned, and exactly `length` bytes, the code units, are written. -/
theorem passStringToWasm0_realloc_sizes (hasEncodeInto : Bool) (s : JsString)
    (malloc : Malloc) (realloc : Realloc) (mem : Memory)
    (hv : validUnits s = true) (hm : MallocOk malloc) (hr : ReallocOk realloc) :
    ∃ r, passStringToWasm0 hasEncodeInto s malloc (some realloc) mem = .ok r ∧
      (∀ k, (∀ c ∈ s.take k, c ≤ 0x7F) → (∃ c, s[k]? = some c ∧ 0x7F < c) →
        r.calls = [.malloc s.length,
          .realloc (malloc s.length mem).1 s.length (k + 3 * (s.length - k))] ∧
        (r.memory.drop r.ptr).take k = s.take k ∧
        r.WASM_VECTOR_LEN = k + (TextEncoder.encode (s.drop k)).length ∧
        r.WASM_VECTOR_LEN ≤ k + 3 * (s.length - k)) ∧
      ((∀ c ∈ s, c ≤ 0x7F) →
        r.calls = [.malloc s.length] ∧ r.ptr = (malloc s.length mem).1 ∧
        r.WASM_VECTOR_LEN = s.length ∧ (r.memory.drop r.ptr).take s.length = s) := by
  obtain ⟨r, hp, hlen, hbytes, hcalls, hptr⟩ :=
    passStringToWasm0_realloc_spec hasEncodeInto s malloc realloc mem hv hm hr
  have henc := encode_asciiPrefix s
  have hkl := asciiPrefixLen_le s
  refine ⟨r, hp, ?_, ?_⟩
  · intro k hb ha
    have hk := asciiPrefixLen_eq_of_first s k hb ha
    subst hk
    obtain ⟨c, hc, _⟩ := ha
    have hlt : asciiPrefixLen s < s.length := by
      by_contra hge
      rw [List.getElem?_eq_none (by omega)] at hc
      cases hc
    have hbound := length_encode_le _ (s.drop (asciiPrefixLen s)) (Nat.le_refl _)
      (validUnits_drop s _ hv)
    rw [List.length_drop] at hbound
    have hwl : r.WASM_VECTOR_LEN =
        asciiPrefixLen s + (TextEncoder.encode (s.drop (asciiPrefixLen s))).length := by
      rw [hlen, henc, List.length_append, List.length_take, Nat.min_eq_left hkl]
    refine ⟨?_, ?_, hwl, by omega⟩
    · rw [hcalls, if_neg (by omega)]
    · have e := congrArg (List.take (asciiPrefixLen s)) hbytes
      rw [List.take_take, Nat.min_eq_left (by omega)] at e
      rw [e, henc, List.take_append_of_le_length (by rw [List.length_take]; omega),
        List.take_take, Nat.min_self]
  · intro hall
    have hk := asciiPrefixLen_eq_length s hall
    have hes : TextEncoder.encode s = s := by
      rw [henc, hk, List.take_length, List.drop_length]
      simp [TextEncoder.encode, toScalarValues, utf8EncodeScalars]
    refine ⟨?_, hptr hk, ?_, ?_⟩
    · rw [hcalls, if_pos hk]
    · rw [hlen, hes]
    · rw [hes] at hlen hbytes
      rw [← hlen]
      exact hbytes

theorem passStringToWasm0_realloc_sizes_witness :
    (validUnits [0x68, 0xE9, 0x20AC, 0xD83D, 0xDE00, 0x41] = true ∧
      MallocOk bumpMalloc ∧ ReallocOk bumpRealloc) ∧
    ∃ r, passStringToWasm0 false [0x68, 0xE9, 0x20AC, 0xD83D, 0xDE00, 0x41] bumpMalloc
        (some bumpRealloc) [1, 2, 3] = .ok r ∧
      (∀ k, (∀ c ∈ List.take k [0x68, 0xE9, 0x20AC, 0xD83D, 0xDE00, 0x41], c ≤ 0x7F) →
        (∃ c, [0x68, 0xE9, 0x20AC, 0xD83D, 0xDE00, 0x41][k]? = some c ∧ 0x7F < c) →
        r.calls = [.malloc [0x68, 0xE9, 0x20AC, 0xD83D, 0xDE00, 0x41].length,
          .realloc (bumpMalloc [0x68, 0xE9, 0x20AC, 0xD83D, 0xDE00, 0x41].length [1, 2, 3]).1
            [0x68, 0xE9, 0x20AC, 0xD83D, 0xDE00, 0x41].length
            (k + 3 * ([0x68, 0xE9, 0x20AC, 0xD83D, 0xDE00, 0x41].length - k))] ∧
        (r.memory.drop r.ptr).take k = List.take k [0x68, 0xE9, 0x20AC, 0xD83D, 0xDE00, 0x41] ∧
        r.WASM_VECTOR_LEN = k + (TextEncoder.encode
          (List.drop k [0x68, 0xE9, 0x20AC, 0xD83D, 0xDE00, 0x41])).length ∧
        r.WASM_VECTOR_LEN ≤ k + 3 * ([0x68, 0xE9, 0x20AC, 0xD83D, 0xDE00, 0x41].length - k)) ∧
      ((∀ c ∈ [0x68, 0xE9, 0x20AC, 0xD83D, 0xDE00, 0x41], c ≤ 0x7F) →
        r.calls = [.malloc [0x68, 0xE9, 0x20AC, 0xD83D, 0xDE00, 0x41].length] ∧
        r.ptr = (bumpMalloc [0x68, 0xE9, 0x20AC, 0xD83D, 0xDE00, 0x41].length [1, 2, 3]).1 ∧
        r.WASM_VECTOR_LEN = [0x68, 0xE9, 0x20AC, 0xD83D, 0xDE00, 0x41].length ∧
        (r.memory.drop r.ptr).take [0x68, 0xE9, 0x20AC, 0xD83D, 0xDE00, 0x41].length =
          [0x68, 0xE9, 0x20AC, 0xD83D, 0xDE00, 0x41]) :=
  ⟨⟨by decide, mallocOk_bumpMalloc, reallocOk_bumpRealloc⟩,
    passStringToWasm0_realloc_sizes false [0x68, 0xE9, 0x20AC, 0xD83D, 0xDE00, 0x41] bumpMalloc
      bumpRealloc [1, 2, 3] (by decide) mallocOk_bumpMalloc reallocOk_bumpRealloc⟩

theorem stale_none (memoryBuffer : Nat) : Stale none memoryBuffer := Or.inl rfl

theorem stale_some_iff (cached : TypedArray) (memoryBuffer : Nat) :
    Stale (some cached) memoryBuffer ↔ cached.buffer ≠ memoryBuffer := by
  constructor
  · rintro (h | ⟨c, hc, hne⟩)
    · cases h
    · cases hc
      exact hne
  · intro h
    exact Or.inr ⟨cached, rfl, h⟩

theorem viewSpec_getUint8Memory0 :
    ViewSpec getUint8Memory0 (fun c => c.cachegetUint8Memory0) .uint8 := by
  intro memoryBuffer c
  by_cases hs : Stale c.cachegetUint8Memory0 memoryBuffer
  · have hget : getUint8Memory0 memoryBuffer c =
        ({ id := c.nextId, kind := .uint8, buffer := memoryBuffer },
          { c with
            cachegetUint8Memory0 := some { id := c.nextId, kind := .uint8, buffer := memoryBuffer },
            nextId := c.nextId + 1 }) := by
      unfold getUint8Memory0
      rcases hs with h | ⟨cached, h, hne⟩
      · simp [h]
      · simp [h, hne]
    rw [hget]
    exact ⟨rfl, rfl, ⟨fun _ => hs, fun _ => rfl⟩, fun _ => rfl, fun h => absurd hs h⟩
  · have hex : ∃ cached, c.cachegetUint8Memory0 = some cached ∧ cached.buffer = memoryBuffer := by
      cases hc : c.cachegetUint8Memory0 with
      | none => exact absurd (Or.inl hc) hs
      | some cached =>
        exact ⟨cached, rfl, Classical.byContradiction fun hne => hs (Or.inr ⟨cached, hc, hne⟩)⟩
    obtain ⟨cached, hc, hb⟩ := hex
    have hget : getUint8Memory0 memoryBuffer c = (cached, c) := by
      unfold getUint8Memory0
      simp [hc, hb]
    rw [hget]
    exact ⟨hb, hc, ⟨fun h => absurd h (Nat.ne_of_lt (Nat.lt_succ_self _)), fun h => absurd h hs⟩,
      fun h => absurd h hs, fun _ => ⟨hc, rfl⟩⟩

theorem viewSpec_getInt32Memory0 :
    ViewSpec getInt32Memory0 (fun c => c.cachegetInt32Memory0) .int32 := by
  intro memoryBuffer c
  by_cases hs : Stale c.cachegetInt32Memory0 memoryBuffer
  · have hget : getInt32Memory0 memoryBuffer c =
        ({ id := c.nextId, kind := .int32, buffer := memoryBuffer },
          { c with
            cachegetInt32Memory0 := some { id := c.nextId, kind := .int32, buffer := memoryBuffer },
            nextId := c.nextId + 1 }) := by
      unfold getInt32Memory0
      rcases hs with h | ⟨cached, h, hne⟩
      · simp [h]
      · simp [h, hne]
    rw [hget]
    exact ⟨rfl, rfl, ⟨fun _ => hs, fun _ => rfl⟩, fun _ => rfl, fun h => absurd hs h⟩
  · have hex : ∃ cached, c.cachegetInt32Memory0 = some cached ∧ cached.buffer = memoryBuffer := by
      cases hc : c.cachegetInt32Memory0 with
      | none => exact absurd (Or.inl hc) hs
      | some cached =>
        exact ⟨cached, rfl, Classical.byContradiction fun hne => hs (Or.inr ⟨cached, hc, hne⟩)⟩
    obtain ⟨cached, hc, hb⟩ := hex
    have hget : getInt32Memory0 memoryBuffer c = (cached, c) := by
      unfold getInt32Memory0
      simp [hc, hb]
    rw [hget]
    exact ⟨hb, hc, ⟨fun h => absurd h (Nat.ne_of_lt (Nat.lt_succ_self _)), fun h => absurd h hs⟩,
      fun h => absurd h hs, fun _ => ⟨hc, rfl⟩⟩

theorem viewSpec_getFloat64Memory0 :
    ViewSpec getFloat64Memory0 (fun c => c.cachegetFloat64Memory0) .float64 := by
  intro memoryBuffer c
  by_cases hs : Stale c.cachegetFloat64Memory0 memoryBuffer
  · have hget : getFloat64Memory0 memoryBuffer c =
        ({ id := c.nextId, kind := .float64, buffer := memoryBuffer },
          { c with
            cachegetFloat64Memory0 := some { id := c.nextId, kind := .float64, buffer := memoryBuffer },
            nextId := c.nextId + 1 }) := by
      unfold getFloat64Memory0
      rcases hs with h | ⟨cached, h, hne⟩
      · simp [h]
      · simp [h, hne]
    rw [hget]
    exact ⟨rfl, rfl, ⟨fun _ => hs, fun _ => rfl⟩, fun _ => rfl, fun h => absurd hs h⟩
  · have hex : ∃ cached, c.cachegetFloat64Memory0 = some cached ∧ cached.buffer = memoryBuffer := by
      cases hc : c.cachegetFloat64Memory0 with
      | none => exact absurd (Or.inl hc) hs
      | some cached =>
        exact ⟨cached, rfl, Classical.byContradiction fun hne => hs (Or.inr ⟨cached, hc, hne⟩)⟩
    obtain ⟨cached, hc, hb⟩ := hex
    have hget : getFloat64Memory0 memoryBuffer c = (cached, c) := by
      unfold getFloat64Memory0
      simp [hc, hb]
    rw [hget]
    exact ⟨hb, hc, ⟨fun h => absurd h (Nat.ne_of_lt (Nat.lt_succ_self _)), fun h => absurd h hs⟩,
      fun h => absurd h hs, fun _ => ⟨hc, rfl⟩⟩

/-- C11: each of `getUint8Memory0`, `getInt32Memory0` and `getFloat64Memory0`, in
every state, returns a view that wraps the current memory buffer; the view is
constructed anew exactly when the cache is empty or wraps another buffer, and
otherwise the cached view object itself is returned and the cache is unchanged. -/
theorem memory_views_follow_buffer :
    ViewSpec getUint8Memory0 (fun c => c.cachegetUint8Memory0) .uint8 ∧
      ViewSpec getInt32Memory0 (fun c => c.cachegetInt32Memory0) .int32 ∧
      ViewSpec getFloat64Memory0 (fun c => c.cachegetFloat64Memory0) .float64 :=
  ⟨viewSpec_getUint8Memory0, viewSpec_getInt32Memory0, viewSpec_getFloat64Memory0⟩

theorem memory_views_follow_buffer_witness :
    (getUint8Memory0 7
        { cachegetUint8Memory0 := some { id := 0, kind := .uint8, buffer := 5 },
          cachegetFloat64Memory0 := none, cachegetInt32Memory0 := none, nextId := 1 }).1.buffer
      = 7 ∧
    (getInt32Memory0 5
        { cachegetUint8Memory0 := none, cachegetFloat64Memory0 := none,
          cachegetInt32Memory0 := some { id := 0, kind := .int32, buffer := 5 },
          nextId := 1 }).1 = { id := 0, kind := .int32, buffer := 5 } :=
  ⟨(memory_views_follow_buffer.1 7 _).1,
    ((memory_views_follow_buffer.2.1 5
      { cachegetUint8Memory0 := none, cachegetFloat64Memory0 := none,
        cachegetInt32Memory0 := some { id := 0, kind := .int32, buffer := 5 },
        nextId := 1 }).2.2.2.2
      (by rw [stale_some_iff]; decide)).1 ▸ rfl⟩

/-! ## Wrapped host calls -/

/-- After `addHeapObject` on a well-formed table the live handles are the old
ones and the handle returned. -/
theorem live_after_addHeapObject {s s1 : HeapState} {free : List Nat} {v : JsVal} {h : Nat}
    (hw : WellFormed s free) (hadd : addHeapObject v s = some (h, s1)) (j : Nat) :
    Live s1 free.tail j ↔ j = h ∨ Live s free j := by
  obtain ⟨s2, hadd2, _, _, _, hlen⟩ := addHeapObject_wellFormed v hw
  rw [hadd2] at hadd
  simp only [Option.some.injEq, Prod.mk.injEq] at hadd
  obtain ⟨hh, hs⟩ := hadd
  subst hs
  subst hh
  simp only [Live]
  cases free with
  | nil =>
    simp only [List.headD_nil, List.tail_nil, List.not_mem_nil, not_false_eq_true,
      and_true, if_true] at hlen ⊢
    rw [hlen]
    have := hw.reserved
    constructor
    · intro ⟨h1, h2⟩
      by_cases e : j = s.heap.length
      · exact Or.inl e
      · exact Or.inr ⟨h1, by omega⟩
    · rintro (rfl | ⟨h1, h2⟩) <;> omega
  | cons a rest =>
    simp only [List.headD_cons, List.tail_cons, List.mem_cons, not_or, reduceCtorEq,
      if_false] at hlen ⊢
    rw [hlen]
    have ha := hw.chain
    have hnd := (List.nodup_cons.mp hw.nodup).1
    constructor
    · intro ⟨h1, h2, h3⟩
      by_cases e : j = a
      · exact Or.inl e
      · exact Or.inr ⟨h1, h2, e, h3⟩
    · rintro (rfl | ⟨h1, h2, h3, h4⟩)
      · exact ⟨ha.1, ha.2.1, hnd⟩
      · exact ⟨h1, h2, h4⟩

/-- C12: when the host function returns `r`, the function made by `handleError`
returns `r` and leaves the world exactly as the host function left it (no handle
allocated, no call of the exception-slot export); when it throws `e`, the
exception is not propagated: exactly one new handle `h` is allocated, with
`getObject(h) = e`, `wasm.__wbindgen_exn_store(h)` is called once, and
`undefined` is returned. -/
theorem handleError_relay (f : HostFn) (thisArg : JsVal) (arguments : List JsVal) (w : World) :
    (∀ r w1, f thisArg arguments w = (.ok r, w1) →
      handleError f thisArg arguments w = some (.ok r, w1)) ∧
    (∀ e w1 free, f thisArg arguments w = (.error e, w1) → WellFormed w1.table free →
      ∃ h table1, addHeapObject e w1.table = some (h, table1) ∧
        handleError f thisArg arguments w =
          some (.ok .undefined,
            { w1 with table := table1, calls := w1.calls ++ [.exnStore h] }) ∧
        getObject h table1 = e ∧ 36 ≤ h ∧ ¬ Live w1.table free h ∧
        (∀ j, Live table1 free.tail j ↔ j = h ∨ Live w1.table free j) ∧
        (∀ j, j ≠ h → getObject j table1 = getObject j w1.table)) := by
  constructor
  · intro r w1 hf
    simp only [handleError, hf]
  · intro e w1 free hf hw
    obtain ⟨table1, hadd, _, hget, hframe, _⟩ := addHeapObject_wellFormed e hw
    obtain ⟨h36, hfresh⟩ := headD_fresh hw
    refine ⟨_, table1, hadd, ?_, hget, h36, fun hl => hfresh _ hl rfl,
      fun j => live_after_addHeapObject hw hadd j, hframe⟩
    simp only [handleError, hf, hadd]

theorem handleError_relay_witness :
    handleError (fun _ args w => (.ok (args.headD .null), w)) .undefined [.num 5]
        { table := initialState, trampoline := 0, state := makeMutClosure 1 2 734,
          calls := [] } =
      some (.ok (.num 5),
        { table := initialState, trampoline := 0, state := makeMutClosure 1 2 734,
          calls := [] }) ∧
    ∃ h table1, addHeapObject (.str [111, 111, 112]) initialState = some (h, table1) ∧
      handleError (fun _ _ w => (.error (.str [111, 111, 112]), w)) .undefined [.num 5]
          { table := initialState, trampoline := 0, state := makeMutClosure 1 2 734,
            calls := [] } =
        some (.ok .undefined,
          { table := table1, trampoline := 0, state := makeMutClosure 1 2 734,
            calls := [.exnStore h] }) ∧
      getObject h table1 = .str [111, 111, 112] ∧ 36 ≤ h :=
  have hthrow := (handleError_relay (fun _ _ w => (.error (.str [111, 111, 112]), w))
    .undefined [.num 5]
    { table := initialState, trampoline := 0, state := makeMutClosure 1 2 734,
      calls := [] }).2 (.str [111, 111, 112]) _ [] rfl wellFormed_initial
  ⟨(handleError_relay (fun _ args w => (.ok (args.headD .null), w)) .undefined [.num 5]
      { table := initialState, trampoline := 0, state := makeMutClosure 1 2 734,
        calls := [] }).1 _ _ rfl,
    match hthrow with
    | ⟨h, table1, hadd, hres, hget, h36, _⟩ => ⟨h, table1, hadd, hres, hget, h36⟩⟩

/-! ## Double free -/

/-- C18: nothing guards against a double free. In a well-formed table, after
`dropObject(h)` twice on a live handle `h` the free list is a self-loop at `h`
(`heap_next` is `h` and the slot `h` holds `h`); the next two `addHeapObject`
calls both return `h`, so the second value overwrites the first; afterwards
`heap_next` is the first value itself. -/
theorem double_free_same_handle (s : HeapState) (free : List Nat) (h : Nat) (v1 v2 : JsVal)
    (_hw : WellFormed s free) (hl : Live s free h) :
    (dropObject h (dropObject h s)).heap_next = .num h ∧
      getObject h (dropObject h (dropObject h s)) = .num h ∧
      ∃ s1 s2, addHeapObject v1 (dropObject h (dropObject h s)) = some (h, s1) ∧
        addHeapObject v2 s1 = some (h, s2) ∧
        getObject h s1 = v1 ∧ getObject h s2 = v2 ∧ s2.heap_next = v1 := by
  obtain ⟨h36, hlt, _⟩ := hl
  have hge : ¬ h < 36 := by omega
  have hlen1 : (arraySet s.heap h s.heap_next).length = s.heap.length :=
    arraySet_length_of_lt _ hlt
  have hlen2 : (arraySet (arraySet s.heap h s.heap_next) h (JsVal.num h)).length =
      s.heap.length := by
    rw [arraySet_length_of_lt _ (by rw [hlen1]; exact hlt), hlen1]
  have hdd : dropObject h (dropObject h s) =
      { heap := arraySet (arraySet s.heap h s.heap_next) h (.num h), heap_next := .num h } := by
    simp [dropObject, hge]
  have hne : ¬ ((h : Int) = (s.heap.length : Int)) := by omega
  rw [hdd]
  refine ⟨rfl, arrayGet_arraySet_same _ _ _, ?_⟩
  have hlen3 : (arraySet (arraySet (arraySet s.heap h s.heap_next) h (JsVal.num h)) h v1).length
      = s.heap.length := by
    rw [arraySet_length_of_lt _ (by rw [hlen2]; exact hlt), hlen2]
  refine ⟨{ heap := arraySet (arraySet (arraySet s.heap h s.heap_next) h (.num h)) h v1,
            heap_next := .num h },
          { heap := arraySet (arraySet (arraySet (arraySet s.heap h s.heap_next) h (.num h)) h v1)
              h v2,
            heap_next := v1 }, ?_, ?_, ?_, ?_, rfl⟩
  · simp [addHeapObject, asIndex_num_nat, hlen2, hne, arrayGet_arraySet_same]
  · simp [addHeapObject, asIndex_num_nat, hlen3, hne, arrayGet_arraySet_same]
  · exact arrayGet_arraySet_same _ _ _
  · exact arrayGet_arraySet_same _ _ _

theorem double_free_same_handle_witness :
    (WellFormed { heap := initialHeap ++ [.obj 1, .obj 2], heap_next := .num 38 } [] ∧
      Live { heap := initialHeap ++ [.obj 1, .obj 2], heap_next := .num 38 } [] 36) ∧
    ∃ s1 s2, addHeapObject (.obj 3) (dropObject 36 (dropObject 36
          { heap := initialHeap ++ [.obj 1, .obj 2], heap_next := .num 38 })) = some (36, s1) ∧
        addHeapObject (.obj 4) s1 = some (36, s2) ∧
        getObject 36 s1 = .obj 3 ∧ getObject 36 s2 = .obj 4 ∧ s2.heap_next = .obj 3 :=
  have hw : WellFormed { heap := initialHeap ++ [.obj 1, .obj 2], heap_next := .num 38 } [] :=
    ⟨by decide, rfl, trivial, List.nodup_nil⟩
  have hl : Live { heap := initialHeap ++ [.obj 1, .obj 2], heap_next := .num 38 } [] 36 :=
    ⟨by decide, by decide, by decide⟩
  ⟨⟨hw, hl⟩, (double_free_same_handle _ _ 36 (.obj 3) (.obj 4) hw hl).2.2⟩


/-! ## The trampoline -/

theorem destructorCalls_append (xs ys : List Call) :
    destructorCalls (xs ++ ys) = destructorCalls xs ++ destructorCalls ys := by
  simp [destructorCalls]

theorem dispatchCalls_append (xs ys : List Call) :
    dispatchCalls (xs ++ ys) = dispatchCalls xs ++ dispatchCalls ys := by
  simp [dispatchCalls]

/-- An invocation whose dispatch run is quiet leaves the object `state` as it
was, provided the counter is not zero; it makes no destructor call and one
dispatch call, with the two environment words. -/
theorem real_quiet (destroy : Destructor) (f : Dispatch) (args : List JsVal) (w : World)
    (hq : Quiet f) (hc : w.state.cnt ≠ 0) :
    (real destroy f args w).2.state = w.state ∧
      destructorCalls (real destroy f args w).2.calls = destructorCalls w.calls ∧
      dispatchCalls (real destroy f args w).2.calls =
        dispatchCalls w.calls ++ [.dispatch w.state.a w.state.b args] := by
  obtain ⟨hs, hd, hp⟩ := hq w.state.a w.state.b args
    { w with state := { w.state with cnt := w.state.cnt + 1, a := 0 },
             calls := w.calls ++ [.dispatch w.state.a w.state.b args] }
  simp only at hs hd hp
  have hcnt : ¬ (w.state.cnt + 1 - 1 = 0) := by omega
  unfold real
  simp only [hs, hcnt, if_false, hd, hp]
  refine ⟨?_, ?_, ?_⟩
  · cases hst : w.state
    simp
  · rw [destructorCalls_append]
    simp [destructorCalls]
  · rw [dispatchCalls_append]
    simp [dispatchCalls]

/-- C13: for a trampoline created by `makeMutClosure(a0, b0, dtor, f)`, after any
number of invocations made one after the other, whose dispatch runs neither drop
nor re-enter the trampoline: no destructor call was made, the counter is 1,
`state.a = a0`, `state.b = b0`, and each invocation called `f` with
`(a0, b0, ...args)`. -/
theorem sequential_invocations_keep_closure (destroy : Destructor) (f : Dispatch)
    (a0 b0 : Int) (dtor : Nat) (argsList : List (List JsVal)) (w : World)
    (hstate : w.state = makeMutClosure a0 b0 dtor) (hq : Quiet f) :
    (invokeAll destroy f argsList w).state = { a := a0, b := b0, cnt := 1, dtor := dtor } ∧
      destructorCalls (invokeAll destroy f argsList w).calls = destructorCalls w.calls ∧
      dispatchCalls (invokeAll destroy f argsList w).calls =
        dispatchCalls w.calls ++ argsList.map (fun args => Call.dispatch a0 b0 args) := by
  induction argsList generalizing w with
  | nil => simp [invokeAll, hstate, makeMutClosure]
  | cons args rest ih =>
    have hc : w.state.cnt ≠ 0 := by rw [hstate]; simp [makeMutClosure]
    obtain ⟨hs, hd, hp⟩ := real_quiet destroy f args w hq hc
    obtain ⟨e1, e2, e3⟩ := ih (real destroy f args w).2 (hs.trans hstate)
    simp only [invokeAll]
    refine ⟨e1, e2.trans hd, ?_⟩
    rw [e3, hp, hstate]
    simp [makeMutClosure]


theorem quiet_idle (out : Except JsVal JsVal) : Quiet (idle out) :=
  fun _ _ _ _ => ⟨rfl, rfl, rfl⟩

theorem sequential_invocations_keep_closure_witness :
    ((({ table := initialState, trampoline := 7, state := makeMutClosure 10 20 734,
         calls := [] } : World).state = makeMutClosure 10 20 734) ∧
      Quiet (idle (.ok .undefined))) ∧
    ((invokeAll (fun _ _ _ t => t) (idle (.ok .undefined)) [[], [.num 1], [.bool true]]
        { table := initialState, trampoline := 7, state := makeMutClosure 10 20 734,
          calls := [] }).state = { a := 10, b := 20, cnt := 1, dtor := 734 } ∧
      destructorCalls (invokeAll (fun _ _ _ t => t) (idle (.ok .undefined))
        [[], [.num 1], [.bool true]]
        { table := initialState, trampoline := 7, state := makeMutClosure 10 20 734,
          calls := [] }).calls = destructorCalls [] ∧
      dispatchCalls (invokeAll (fun _ _ _ t => t) (idle (.ok .undefined))
        [[], [.num 1], [.bool true]]
        { table := initialState, trampoline := 7, state := makeMutClosure 10 20 734,
          calls := [] }).calls =
        dispatchCalls [] ++
          [[], [.num 1], [.bool true]].map (fun args => Call.dispatch 10 20 args)) :=
  ⟨⟨rfl, quiet_idle _⟩,
    sequential_invocations_keep_closure (fun _ _ _ t => t) (idle (.ok .undefined)) 10 20 734
      [[], [.num 1], [.bool true]]
      { table := initialState, trampoline := 7, state := makeMutClosure 10 20 734, calls := [] }
      rfl (quiet_idle _)⟩

/-! ## Dropping the closure -/

/-- What `__wbindgen_cb_drop` does on a handle that holds the trampoline. -/
theorem cb_drop_eq (w : World) (h : Nat) (hobj : getObject h w.table = .obj w.trampoline) :
    __wbindgen_cb_drop h w =
      if w.state.cnt = 1 then
        (.ok true, { w with table := dropObject h w.table,
                            state := { w.state with cnt := w.state.cnt - 1, a := 0 } })
      else
        (.ok false, { w with table := dropObject h w.table,
                             state := { w.state with cnt := w.state.cnt - 1 } }) := by
  simp only [__wbindgen_cb_drop, takeObject, hobj, if_true]

/-- C14 as stated fails: a trampoline made by `__wbindgen_closure_wrapper1367`
sits at handle 36 with counter 1; `__wbindgen_cb_drop(36)` returns true with the
first word zeroed, and the log holds no destructor call. -/
theorem cb_drop_calls_no_destructor :
    __wbindgen_closure_wrapper1367 10 20 7 initialState = some (36, exampleWorld 1 []) ∧
      __wbindgen_cb_drop 36 (exampleWorld 1 []) =
        (.ok true,
          { table := { heap := initialHeap ++ [.num 37], heap_next := .num 36 },
            trampoline := 7, state := { a := 0, b := 20, cnt := 0, dtor := 734 },
            calls := [] }) ∧
      destructorCalls (__wbindgen_cb_drop 36 (exampleWorld 1 [])).2.calls = [] :=
  ⟨rfl, rfl, rfl⟩

/-- C14 amended: dropping a trampoline when no invocation is in flight (counter
1), via `__wbindgen_cb_drop` on its handle, makes no call of the destructor
export: it frees the handle, brings the counter to 0, sets the first environment
word to the sentinel 0 and returns true, which tells the module that called it
to destroy the environment. -/
theorem cb_drop_last_owner (w : World) (h : Nat)
    (hobj : getObject h w.table = .obj w.trampoline) (hcnt : w.state.cnt = 1) :
    __wbindgen_cb_drop h w =
        (.ok true, { w with table := dropObject h w.table,
                            state := { w.state with cnt := 0, a := 0 } }) ∧
      (__wbindgen_cb_drop h w).2.calls = w.calls ∧
      (__wbindgen_cb_drop h w).2.state.a = 0 ∧
      (__wbindgen_cb_drop h w).2.state.cnt = 0 := by
  rw [cb_drop_eq w h hobj, if_pos hcnt, hcnt]
  exact ⟨rfl, rfl, rfl, rfl⟩

theorem cb_drop_last_owner_witness :
    (getObject 36 (exampleWorld 1 [.exnStore 40]).table =
        .obj (exampleWorld 1 [.exnStore 40]).trampoline ∧
      (exampleWorld 1 [.exnStore 40]).state.cnt = 1) ∧
    (__wbindgen_cb_drop 36 (exampleWorld 1 [.exnStore 40])).2.calls = [.exnStore 40] ∧
    (__wbindgen_cb_drop 36 (exampleWorld 1 [.exnStore 40])).2.state.a = 0 :=
  have hs := cb_drop_last_owner (exampleWorld 1 [.exnStore 40]) 36 rfl rfl
  ⟨⟨rfl, rfl⟩, hs.2.1, hs.2.2.1⟩

/-- C15: for a handle `h` that holds a trampoline with counter `c >= 1`,
`__wbindgen_cb_drop(h)` returns true exactly when `c = 1`; either way the counter
becomes `c - 1`, the slot `h` is released as by `dropObject(h)` (for `h >= 36` it
becomes the head of the free list) and no destructor call is made; on true
`state.a` is 0; on false `state.a` and `state.b` are as before. -/
theorem cb_drop_spec (w : World) (h : Nat) (c : Int)
    (hobj : getObject h w.table = .obj w.trampoline) (hcnt : w.state.cnt = c)
    (_hc : 1 ≤ c) :
    (__wbindgen_cb_drop h w).1 = .ok (decide (c = 1)) ∧
      (__wbindgen_cb_drop h w).2.state.cnt = c - 1 ∧
      (__wbindgen_cb_drop h w).2.table = dropObject h w.table ∧
      (36 ≤ h → (__wbindgen_cb_drop h w).2.table.heap_next = .num h ∧
        getObject h (__wbindgen_cb_drop h w).2.table = w.table.heap_next) ∧
      (__wbindgen_cb_drop h w).2.calls = w.calls ∧
      (__wbindgen_cb_drop h w).2.state.b = w.state.b ∧
      (c = 1 → (__wbindgen_cb_drop h w).2.state.a = 0) ∧
      (1 < c → (__wbindgen_cb_drop h w).2.state.a = w.state.a) := by
  have hfree : 36 ≤ h → (dropObject h w.table).heap_next = .num h ∧
      getObject h (dropObject h w.table) = w.table.heap_next := by
    intro h36
    have hge : ¬ h < 36 := by omega
    simp only [dropObject, hge, if_false, getObject]
    exact ⟨trivial, arrayGet_arraySet_same _ _ _⟩
  rw [cb_drop_eq w h hobj, hcnt]
  by_cases h1 : c = 1
  · rw [if_pos h1]
    subst h1
    exact ⟨rfl, rfl, rfl, hfree, rfl, rfl, fun _ => rfl, fun hlt => absurd hlt (by decide)⟩
  · rw [if_neg h1]
    refine ⟨?_, rfl, rfl, hfree, rfl, rfl, fun e => absurd e h1, fun _ => rfl⟩
    simp [h1]

theorem cb_drop_spec_witness :
    (getObject 36 (exampleWorld 2 []).table = .obj (exampleWorld 2 []).trampoline ∧
      (exampleWorld 2 []).state.cnt = 2 ∧ (1 : Int) ≤ 2) ∧
    (__wbindgen_cb_drop 36 (exampleWorld 2 [])).1 = .ok (decide ((2 : Int) = 1)) ∧
    (__wbindgen_cb_drop 36 (exampleWorld 2 [])).2.state.cnt = 2 - 1 ∧
    (__wbindgen_cb_drop 36 (exampleWorld 2 [])).2.table =
      { heap := initialHeap ++ [.num 37], heap_next := .num 36 } :=
  have hs := cb_drop_spec (exampleWorld 2 []) 36 2 rfl rfl (by decide)
  ⟨⟨rfl, rfl, by decide⟩, hs.1, hs.2.1, hs.2.2.1.trans (by decide)⟩

/-! ## The finalization of an invocation -/

/-- An invocation unfolded: the dispatch runs in the world `inFlight args w` with
the saved first word and `state.b`; then the counter is decremented and either
the destructor is called or the saved word is restored. -/
theorem real_eq (destroy : Destructor) (f : Dispatch) (args : List JsVal) (w : World) :
    real destroy f args w =
      if (f w.state.a w.state.b args (inFlight args w)).2.state.cnt - 1 = 0 then
        ((f w.state.a w.state.b args (inFlight args w)).1,
          { (f w.state.a w.state.b args (inFlight args w)).2 with
            state := { (f w.state.a w.state.b args (inFlight args w)).2.state with
              cnt := (f w.state.a w.state.b args (inFlight args w)).2.state.cnt - 1 },
            calls := (f w.state.a w.state.b args (inFlight args w)).2.calls ++
              [.destructor (f w.state.a w.state.b args (inFlight args w)).2.state.dtor
                w.state.a (f w.state.a w.state.b args (inFlight args w)).2.state.b],
            table := destroy (f w.state.a w.state.b args (inFlight args w)).2.state.dtor
              w.state.a (f w.state.a w.state.b args (inFlight args w)).2.state.b
              (f w.state.a w.state.b args (inFlight args w)).2.table })
      else
        ((f w.state.a w.state.b args (inFlight args w)).1,
          { (f w.state.a w.state.b args (inFlight args w)).2 with
            state := { (f w.state.a w.state.b args (inFlight args w)).2.state with
              cnt := (f w.state.a w.state.b args (inFlight args w)).2.state.cnt - 1,
              a := w.state.a } }) := by
  rfl

theorem keepsZero_idle (out : Except JsVal JsVal) : KeepsZero (idle out) :=
  fun _ _ _ _ h => h

theorem keepsZero_dropInFlight (handle : Nat) (out : Except JsVal JsVal) :
    KeepsZero (dropInFlight handle out) := by
  intro a b args w h
  simp only [dropInFlight, __wbindgen_cb_drop]
  split
  · split
    · rfl
    · exact h
  · exact h

theorem keepsZero_real (destroy : Destructor) (f : Dispatch) (args : List JsVal) (w : World)
    (hf : KeepsZero f) (h : w.state.a = 0) : (real destroy f args w).2.state.a = 0 := by
  have hz := hf w.state.a w.state.b args (inFlight args w) rfl
  rw [real_eq]
  split
  · exact hz
  · exact h

theorem keepsZero_reenter (destroy : Destructor) (inner : Dispatch) (innerArgs : List JsVal)
    (k : Except JsVal JsVal → Except JsVal JsVal) (hf : KeepsZero inner) :
    KeepsZero (reenter destroy inner innerArgs k) :=
  fun _ _ _ w h => keepsZero_real destroy inner innerArgs w hf h

/-- An invocation during which the closure is dropped, no other invocation being
in flight: the destructor is called once, with the saved words, and `state.a`
stays 0. -/
theorem real_dropInFlight (destroy : Destructor) (handle : Nat) (out : Except JsVal JsVal)
    (args : List JsVal) (w : World)
    (hobj : getObject handle w.table = .obj w.trampoline) (hcnt : w.state.cnt = 1) :
    real destroy (dropInFlight handle out) args w =
      (out, { w with
        table := destroy w.state.dtor w.state.a w.state.b (dropObject handle w.table),
        state := { w.state with cnt := 0, a := 0 },
        calls := w.calls ++
          [.dispatch w.state.a w.state.b args,
           .destructor w.state.dtor w.state.a w.state.b] }) := by
  have hobj2 : getObject handle (inFlight args w).table = .obj (inFlight args w).trampoline :=
    hobj
  have hne : ¬ ((inFlight args w).state.cnt = 1) := by
    simp only [inFlight, hcnt]
    decide
  have hd : dropInFlight handle out w.state.a w.state.b args (inFlight args w) =
      (out, { inFlight args w with
        table := dropObject handle w.table,
        state := { (inFlight args w).state with cnt := (inFlight args w).state.cnt - 1 } }) := by
    simp only [dropInFlight, cb_drop_eq _ _ hobj2, if_neg hne]
    rfl
  rw [real_eq, hd]
  simp only [inFlight, hcnt]
  simp

/-- C16: for every invocation of the trampoline, whether the dispatch returns or
throws: `f` runs with the counter incremented once and the first word zeroed;
afterwards the counter is decremented once; if that brings it to zero the
destructor export is called exactly once, with the saved first word and
`state.b`, and `state.a` is left as the dispatch left it, which is 0 for a
dispatch that never writes a non-zero word; otherwise no destructor call is made
and `state.a` is the saved word again; the value returned or the exception thrown
by `f` is the outcome of the invocation. -/
theorem real_finalization (destroy : Destructor) (f : Dispatch) (args : List JsVal)
    (w : World) :
    (inFlight args w).state.cnt = w.state.cnt + 1 ∧
      (inFlight args w).state.a = 0 ∧
      (real destroy f args w).1 = (f w.state.a w.state.b args (inFlight args w)).1 ∧
      (real destroy f args w).2.state.cnt =
        (f w.state.a w.state.b args (inFlight args w)).2.state.cnt - 1 ∧
      ((f w.state.a w.state.b args (inFlight args w)).2.state.cnt - 1 = 0 →
        (real destroy f args w).2.calls =
          (f w.state.a w.state.b args (inFlight args w)).2.calls ++
            [.destructor (f w.state.a w.state.b args (inFlight args w)).2.state.dtor
              w.state.a (f w.state.a w.state.b args (inFlight args w)).2.state.b] ∧
        (real destroy f args w).2.state.a =
          (f w.state.a w.state.b args (inFlight args w)).2.state.a ∧
        (KeepsZero f → (real destroy f args w).2.state.a = 0)) ∧
      ((f w.state.a w.state.b args (inFlight args w)).2.state.cnt - 1 ≠ 0 →
        (real destroy f args w).2.calls =
          (f w.state.a w.state.b args (inFlight args w)).2.calls ∧
        (real destroy f args w).2.state.a = w.state.a) := by
  refine ⟨rfl, rfl, ?_, ?_, ?_, ?_⟩
  · rw [real_eq]
    split <;> rfl
  · rw [real_eq]
    split <;> rfl
  · intro h0
    rw [real_eq, if_pos h0]
    exact ⟨rfl, rfl, fun hk => hk _ _ _ _ rfl⟩
  · intro h0
    rw [real_eq, if_neg h0]
    exact ⟨rfl, rfl⟩

theorem real_finalization_witness :
    (real (fun _ _ _ t => t) (dropInFlight 36 (.error (.str [111]))) [.num 3]
        (exampleWorld 1 [])).1 = .error (.str [111]) ∧
    (real (fun _ _ _ t => t) (dropInFlight 36 (.error (.str [111]))) [.num 3]
        (exampleWorld 1 [])).2.calls = [.dispatch 10 20 [.num 3], .destructor 734 10 20] ∧
    (real (fun _ _ _ t => t) (dropInFlight 36 (.error (.str [111]))) [.num 3]
        (exampleWorld 1 [])).2.state.a = 0 ∧
    (real (fun _ _ _ t => t) (idle (.ok (.num 9))) [.num 3] (exampleWorld 1 [])).2.state.a
      = 10 :=
  have hd := real_finalization (fun _ _ _ t => t) (dropInFlight 36 (.error (.str [111])))
    [.num 3] (exampleWorld 1 [])
  have hi := real_finalization (fun _ _ _ t => t) (idle (.ok (.num 9))) [.num 3]
    (exampleWorld 1 [])
  ⟨hd.2.2.1.trans rfl, (hd.2.2.2.2.1 (by decide)).1.trans rfl,
    (hd.2.2.2.2.1 (by decide)).2.2 (keepsZero_dropInFlight _ _),
    (hi.2.2.2.2.2 (by decide)).2.trans rfl⟩

/-! ## Re-entrant invocations -/

theorem zeroWords_nil : ZeroWords [] := by
  intro a b args h
  cases h

theorem zeroWords_cons_dispatch (b : Int) (args : List JsVal) (calls : List Call)
    (h : ZeroWords calls) : ZeroWords (Call.dispatch 0 b args :: calls) := by
  intro a1 b1 args1 hm
  rcases List.mem_cons.mp hm with e | hm1
  · cases e
    rfl
  · exact h a1 b1 args1 hm1

theorem reentrant_idle (out : Except JsVal JsVal) : Reentrant (idle out) := by
  intro a b args w _ _
  exact ⟨rfl, [], by simp [idle], rfl, zeroWords_nil⟩

theorem restore_state (st st0 : ClosureState) (a : Int)
    (h : st = { st0 with cnt := st0.cnt + 1, a := 0 }) (ha : a = st0.a) :
    ({ st with cnt := st.cnt - 1, a := a } : ClosureState) = st0 := by
  subst h
  subst ha
  cases st0
  simp

/-- A nested invocation made while an invocation is in flight: its dispatch is
called with 0 as first word, and once it has completed the object `state` is as
the nested invocation found it. -/
theorem real_nested (destroy : Destructor) (inner : Dispatch) (innerArgs : List JsVal)
    (w : World) (hin : Reentrant inner) (hc : 0 < w.state.cnt) (ha : w.state.a = 0) :
    (real destroy inner innerArgs w).1 =
        (inner 0 w.state.b innerArgs (inFlight innerArgs w)).1 ∧
      (real destroy inner innerArgs w).2.state = w.state ∧
      ∃ extra, (real destroy inner innerArgs w).2.calls =
          w.calls ++ Call.dispatch 0 w.state.b innerArgs :: extra ∧
        destructorCalls extra = [] ∧ ZeroWords extra := by
  have hc1 : 0 < (inFlight innerArgs w).state.cnt := by
    simp only [inFlight]
    omega
  obtain ⟨hs, extra, hcalls, hd, hz⟩ :=
    hin w.state.a w.state.b innerArgs (inFlight innerArgs w) hc1 rfl
  have hne : ¬ ((inner w.state.a w.state.b innerArgs (inFlight innerArgs w)).2.state.cnt - 1
      = 0) := by
    rw [hs]
    show ¬ (w.state.cnt + 1 - 1 = 0)
    omega
  rw [real_eq, if_neg hne]
  refine ⟨by rw [ha], restore_state _ _ _ hs rfl, extra, ?_, hd, hz⟩
  refine hcalls.trans ?_
  simp only [inFlight, ha]
  simp

/-- Re-entering, to any depth, is itself a run that re-enters and never drops. -/
theorem reentrant_reenter (destroy : Destructor) (inner : Dispatch) (innerArgs : List JsVal)
    (k : Except JsVal JsVal → Except JsVal JsVal) (hin : Reentrant inner) :
    Reentrant (reenter destroy inner innerArgs k) := by
  intro a b args w hc ha
  obtain ⟨_, hs, extra, hcalls, hd, hz⟩ := real_nested destroy inner innerArgs w hin hc ha
  refine ⟨hs, Call.dispatch 0 w.state.b innerArgs :: extra, hcalls, ?_,
    zeroWords_cons_dispatch _ _ _ hz⟩
  simpa [destructorCalls] using hd

/-- C17: while an invocation of the trampoline is in progress `state.a` is 0; so a
re-entrant invocation made from inside the dispatch calls `f` with 0 as first
environment word, and so does every invocation nested deeper; when the nested
and the outer invocation have both completed, without the closure being
dropped, the object `state` is as before the outer invocation: `state.a` is the
original word again and the counter has its old value. -/
theorem reentrant_invocation (destroy : Destructor) (inner : Dispatch)
    (innerArgs : List JsVal) (k : Except JsVal JsVal → Except JsVal JsVal)
    (args : List JsVal) (w : World) (hin : Reentrant inner) (hc : 0 < w.state.cnt) :
    (inFlight args w).state.a = 0 ∧
      (real destroy (reenter destroy inner innerArgs k) args w).1 =
        k (inner 0 w.state.b innerArgs (inFlight innerArgs (inFlight args w))).1 ∧
      (real destroy (reenter destroy inner innerArgs k) args w).2.state = w.state ∧
      ∃ extra, (real destroy (reenter destroy inner innerArgs k) args w).2.calls =
          w.calls ++ Call.dispatch w.state.a w.state.b args ::
            Call.dispatch 0 w.state.b innerArgs :: extra ∧
        destructorCalls extra = [] ∧ ZeroWords extra := by
  have hc1 : 0 < (inFlight args w).state.cnt := by
    simp only [inFlight]
    omega
  obtain ⟨hout, hs, extra, hcalls, hd, hz⟩ :=
    real_nested destroy inner innerArgs (inFlight args w) hin hc1 rfl
  have hs2 : (reenter destroy inner innerArgs k w.state.a w.state.b args
      (inFlight args w)).2.state = (inFlight args w).state := hs
  have hne : ¬ ((reenter destroy inner innerArgs k w.state.a w.state.b args
      (inFlight args w)).2.state.cnt - 1 = 0) := by
    rw [hs2]
    show ¬ (w.state.cnt + 1 - 1 = 0)
    omega
  rw [real_eq, if_neg hne]
  refine ⟨rfl, ?_, restore_state _ _ _ hs2 rfl, extra, ?_, hd, hz⟩
  · exact congrArg k hout
  · refine hcalls.trans ?_
    simp only [inFlight]
    simp

theorem reentrant_invocation_witness :
    (Reentrant (reenter (fun _ _ _ t => t) (idle (.ok .null)) [.num 2] id) ∧
      (0 : Int) < (exampleWorld 1 []).state.cnt) ∧
    (real (fun _ _ _ t => t)
        (reenter (fun _ _ _ t => t)
          (reenter (fun _ _ _ t => t) (idle (.ok .null)) [.num 2] id) [.num 1] id)
        [.num 0] (exampleWorld 1 [])).2.state = (exampleWorld 1 []).state ∧
    (real (fun _ _ _ t => t)
        (reenter (fun _ _ _ t => t)
          (reenter (fun _ _ _ t => t) (idle (.ok .null)) [.num 2] id) [.num 1] id)
        [.num 0] (exampleWorld 1 [])).2.calls =
      [.dispatch 10 20 [.num 0], .dispatch 0 20 [.num 1], .dispatch 0 20 [.num 2]] :=
  have hin : Reentrant (reenter (fun _ _ _ t => t) (idle (.ok .null)) [.num 2] id) :=
    reentrant_reenter _ _ _ _ (reentrant_idle _)
  have hs := reentrant_invocation (fun _ _ _ t => t)
    (reenter (fun _ _ _ t => t) (idle (.ok .null)) [.num 2] id) [.num 1] id [.num 0]
    (exampleWorld 1 []) hin (by decide)
  ⟨⟨hin, by decide⟩, hs.2.2.1, rfl⟩


end Synth
